import Mathlib

/-!
# Verification of the quadrature-signal-lab DSP core

A shallow embedding, over the real and complex numbers, of the numerical
signal-processing core of the repository: time-base generation, signal
synthesis, quadrature down/up-conversion, dB conversion, SNR estimation,
moving-average and windowed-sinc low-pass filters, and the iterative
radix-2 FFT.  JS `Float64Array`s become `List ℝ` (or `ℕ → ℂ` for the
in-place FFT buffers), JS floating-point arithmetic becomes exact real
arithmetic, and `Math.floor` becomes `Int.floor`.  Out-of-range JS array
reads (which would produce `NaN`) are modelled with `List.getD _ 0`; all
theorems that depend on indexing carry the equal-length hypotheses under
which the JS code never reads out of range.
-/

noncomputable section

/-- The constant `TWO_PI = 2 * Math.PI` from the source. -/
def TWO_PI : ℝ := 2 * Real.pi

/-- Embeds `generateTimeArray(sampleRate, duration)`:
`numSamples = Math.floor(sampleRate * duration)` samples `t[i] = i / sampleRate`.
(A negative sample count would make `new Float64Array` throw in JS; the
nonnegative case is modelled by `Int.toNat ∘ Int.floor`.) -/
def generateTimeArray (sampleRate duration : ℝ) : List ℝ :=
  (List.range (⌊sampleRate * duration⌋).toNat).map (fun i : ℕ => (i : ℝ) / sampleRate)

/-- Parameter record for `generateSignal`.  Fields that have explicit
defaults in the JS destructuring (`amplitude = 1`, `modulationIndex = 0.5`
for AM and `= 2` for FM) are `Option ℝ`; the remaining fields are plain
reals supplied by the caller. -/
structure SignalParams where
  frequency : ℝ
  amplitude : Option ℝ
  carrierFreq : ℝ
  modulatingFreq : ℝ
  modulationIndex : Option ℝ
  chirpEndFreq : ℝ

/-- Embeds `generateSignal(type, t, params)`.  The seven recognized
families are matched on their selector strings; any other string falls to
the default branch, which (like the JS `switch` falling through to
`return signal` on the freshly allocated `Float64Array`) yields the
all-zero signal of the same length as `t`.  In the chirp branch,
`t[t.length - 1] || 1` is modelled by `getLast?.getD 0` followed by the
`= 0 → 1` fallback. -/
def generateSignal (type : String) (t : List ℝ) (params : SignalParams) : List ℝ :=
  match type with
  | "sine" =>
      t.map (fun x => params.amplitude.getD 1 * Real.sin (TWO_PI * params.frequency * x))
  | "cosine" =>
      t.map (fun x => params.amplitude.getD 1 * Real.cos (TWO_PI * params.frequency * x))
  | "square" =>
      t.map (fun x =>
        params.amplitude.getD 1 * Real.sign (Real.sin (TWO_PI * params.frequency * x)))
  | "sawtooth" =>
      t.map (fun x =>
        params.amplitude.getD 1 * 2 *
          (params.frequency * x - ⌊params.frequency * x + 0.5⌋))
  | "am" =>
      t.map (fun x =>
        (1 + params.modulationIndex.getD 0.5 * Real.cos (TWO_PI * params.modulatingFreq * x)) *
          Real.cos (TWO_PI * params.carrierFreq * x))
  | "fm" =>
      t.map (fun x =>
        Real.cos (TWO_PI * params.carrierFreq * x +
          params.modulationIndex.getD 2 * Real.sin (TWO_PI * params.modulatingFreq * x)))
  | "chirp" =>
      let last := t.getLast?.getD 0
      let duration := if last = 0 then 1 else last
      let rate := (params.chirpEndFreq - params.carrierFreq) / duration
      t.map (fun x => Real.cos (TWO_PI * (params.carrierFreq * x + 0.5 * rate * x * x)))
  | _ => List.replicate t.length 0

/-- Embeds `downconvert(signal, t, carrierFreq)`:
`I[i] = signal[i] * cos(2π fc t[i])`, `Q[i] = signal[i] * -sin(2π fc t[i])`,
looping over `signal.length` (pairing each sample with its time instant). -/
def downconvert (signal t : List ℝ) (carrierFreq : ℝ) : List ℝ × List ℝ :=
  (List.zipWith (fun s x => s * Real.cos (TWO_PI * carrierFreq * x)) signal t,
   List.zipWith (fun s x => s * -Real.sin (TWO_PI * carrierFreq * x)) signal t)

/-- Embeds `upconvert(I, Q, t, carrierFreq)`:
`output[i] = I[i] * cos(2π fc t[i]) - Q[i] * sin(2π fc t[i])`, looping over
`I.length`. -/
def upconvert (inphase quadrature t : List ℝ) (carrierFreq : ℝ) : List ℝ :=
  List.zipWith
    (fun iq x => iq.1 * Real.cos (TWO_PI * carrierFreq * x) -
      iq.2 * Real.sin (TWO_PI * carrierFreq * x))
    (inphase.zip quadrature) t

/-- The exact round trip: `upconvert ∘ downconvert` is the identity on any
signal whose time base is at least as long, pointwise by `cos² + sin² = 1`. -/
theorem upconvert_downconvert_eq (signal t : List ℝ) (fc : ℝ)
    (h : signal.length ≤ t.length) :
    upconvert (downconvert signal t fc).1 (downconvert signal t fc).2 t fc = signal := by
  induction signal generalizing t with
  | nil => simp [upconvert, downconvert]
  | cons a s ih =>
    cases t with
    | nil => simp at h
    | cons x ts =>
      simp only [downconvert, upconvert, List.zipWith_cons_cons, List.zip_cons_cons,
        List.length_cons] at *
      congr 1
      · linear_combination a * Real.sin_sq_add_cos_sq (TWO_PI * fc * x)
      · have := ih ts (by omega)
        simpa [downconvert, upconvert] using this

/-- **C1**: for every time base `t` and carrier `fc`, and every signal that
is a pure sinusoid at frequency `fc` sampled on `t` (any amplitude `A` and
phase `phi`), `upconvert (downconvert signal t fc) t fc = signal` exactly
(the algebraic identity `cos² + sin² = 1`, exact over the embedded reals). -/
theorem roundtrip_pure_sinusoid (t : List ℝ) (fc A phi : ℝ) (signal : List ℝ)
    (hs : signal = t.map (fun x => A * Real.sin (TWO_PI * fc * x + phi))) :
    upconvert (downconvert signal t fc).1 (downconvert signal t fc).2 t fc = signal := by
  subst hs
  exact upconvert_downconvert_eq _ _ _ (by simp)

/-- Witness for C1 at `t = [0, 1/4]`, `fc = 100`, amplitude `2`, phase `1`. -/
theorem roundtrip_pure_sinusoid_witness :
    upconvert
      (downconvert (([0, 1/4] : List ℝ).map (fun x => 2 * Real.sin (TWO_PI * 100 * x + 1)))
        [0, 1/4] 100).1
      (downconvert (([0, 1/4] : List ℝ).map (fun x => 2 * Real.sin (TWO_PI * 100 * x + 1)))
        [0, 1/4] 100).2
      [0, 1/4] 100 =
      ([0, 1/4] : List ℝ).map (fun x => 2 * Real.sin (TWO_PI * 100 * x + 1)) :=
  roundtrip_pure_sinusoid [0, 1/4] 100 2 1 _ rfl

/-- **C2**: for equal-length `signal` and `t` and any `carrierFreq`,
`downconvert` returns two sequences of that length with
`I[i] = signal[i]·cos(2π·fc·t[i])` and `Q[i] = signal[i]·(−sin(2π·fc·t[i]))`
at every index, and `upconvert` (on any equal-length `I`, `Q`) returns a
sequence with `out[i] = I[i]·cos(2π·fc·t[i]) − Q[i]·sin(2π·fc·t[i])`; both
are pure pointwise maps of their arguments (no filtering, no state). -/
theorem downconvert_upconvert_pointwise (signal t : List ℝ) (fc : ℝ)
    (h : signal.length = t.length) :
    (downconvert signal t fc).1.length = signal.length ∧
    (downconvert signal t fc).2.length = signal.length ∧
    (∀ i, i < signal.length →
      (downconvert signal t fc).1.getD i 0 =
        signal.getD i 0 * Real.cos (TWO_PI * fc * t.getD i 0) ∧
      (downconvert signal t fc).2.getD i 0 =
        signal.getD i 0 * -Real.sin (TWO_PI * fc * t.getD i 0)) ∧
    (∀ pI pQ : List ℝ, pI.length = t.length → pQ.length = pI.length →
      (upconvert pI pQ t fc).length = pI.length ∧
      ∀ i, i < pI.length →
        (upconvert pI pQ t fc).getD i 0 =
          pI.getD i 0 * Real.cos (TWO_PI * fc * t.getD i 0) -
            pQ.getD i 0 * Real.sin (TWO_PI * fc * t.getD i 0)) := by
  refine ⟨by simp [downconvert, h], by simp [downconvert, h], ?_, ?_⟩
  · intro i hi
    have hi' : i < t.length := h ▸ hi
    have h1 : i < (List.zipWith
        (fun s x => s * Real.cos (TWO_PI * fc * x)) signal t).length := by
      simp [h, hi, hi']
    have h2 : i < (List.zipWith
        (fun s x => s * -Real.sin (TWO_PI * fc * x)) signal t).length := by
      simp [h, hi, hi']
    constructor
    · rw [downconvert, List.getD_eq_getElem _ _ h1, List.getElem_zipWith,
        List.getD_eq_getElem _ _ hi, List.getD_eq_getElem _ _ hi']
    · rw [downconvert, List.getD_eq_getElem _ _ h2, List.getElem_zipWith,
        List.getD_eq_getElem _ _ hi, List.getD_eq_getElem _ _ hi']
  · intro pI pQ hIt hQI
    have hzip : (pI.zip pQ).length = pI.length := by simp [hQI]
    have hlen : (upconvert pI pQ t fc).length = pI.length := by
      simp [upconvert, hzip, hIt]
    refine ⟨hlen, ?_⟩
    intro i hi
    have hiU : i < (upconvert pI pQ t fc).length := hlen ▸ hi
    have hit : i < t.length := hIt ▸ hi
    have hiq : i < pQ.length := hQI ▸ hi
    have hiz : i < (pI.zip pQ).length := hzip ▸ hi
    rw [List.getD_eq_getElem _ _ hiU]
    simp only [upconvert, List.getElem_zipWith, List.getElem_zip]
    rw [List.getD_eq_getElem _ _ hi, List.getD_eq_getElem _ _ hiq,
      List.getD_eq_getElem _ _ hit]

/-- Witness for C2 at `signal = [2, 3]`, `t = [0, 1]`, `fc = 5`,
checking the mixing formula at index `0` and the upconvert formula on
`I = [1, 0]`, `Q = [0, 1]`. -/
theorem downconvert_upconvert_pointwise_witness :
    (downconvert [2, 3] [0, 1] 5).1.getD 0 0 =
      (([2, 3] : List ℝ).getD 0 0) * Real.cos (TWO_PI * 5 * (([0, 1] : List ℝ).getD 0 0)) ∧
    (upconvert [1, 0] [0, 1] [0, 1] 5).getD 1 0 =
      (([1, 0] : List ℝ).getD 1 0) * Real.cos (TWO_PI * 5 * (([0, 1] : List ℝ).getD 1 0)) -
        (([0, 1] : List ℝ).getD 1 0) * Real.sin (TWO_PI * 5 * (([0, 1] : List ℝ).getD 1 0)) := by
  have h := downconvert_upconvert_pointwise [2, 3] [0, 1] 5 (by simp)
  exact ⟨((h.2.2.1 0 (by norm_num)).1),
    ((h.2.2.2 [1, 0] [0, 1] (by simp) (by simp)).2 1 (by norm_num))⟩

/-- **C6** (amended): `generateTimeArray` returns `⌊sampleRate·duration⌋`
samples with `t[i] = i / sampleRate`; hence `t[0] = 0`, consecutive samples
differ by exactly `1/sampleRate`, and the sequence is strictly increasing
whenever `sampleRate > 0` (for negative sample rates the spacing is still
`1/sampleRate`, but the sequence decreases — see the counterexample). -/
theorem generateTimeArray_spec (sampleRate duration : ℝ) :
    (generateTimeArray sampleRate duration).length = (⌊sampleRate * duration⌋).toNat ∧
    (∀ i, i < (generateTimeArray sampleRate duration).length →
      (generateTimeArray sampleRate duration).getD i 0 = (i : ℝ) / sampleRate) ∧
    (generateTimeArray sampleRate duration ≠ [] →
      (generateTimeArray sampleRate duration).getD 0 0 = 0) ∧
    (∀ i, i + 1 < (generateTimeArray sampleRate duration).length →
      (generateTimeArray sampleRate duration).getD (i + 1) 0 -
        (generateTimeArray sampleRate duration).getD i 0 = 1 / sampleRate) ∧
    (0 < sampleRate → ∀ i j, i < j →
      j < (generateTimeArray sampleRate duration).length →
      (generateTimeArray sampleRate duration).getD i 0 <
        (generateTimeArray sampleRate duration).getD j 0) := by
  have hlen : (generateTimeArray sampleRate duration).length =
      (⌊sampleRate * duration⌋).toNat := by
    rw [generateTimeArray, List.length_map, List.length_range]
  have hget : ∀ i, i < (generateTimeArray sampleRate duration).length →
      (generateTimeArray sampleRate duration).getD i 0 = (i : ℝ) / sampleRate := by
    intro i hi
    rw [List.getD_eq_getElem _ _ hi]
    simp only [generateTimeArray, List.getElem_map, List.getElem_range]
  refine ⟨hlen, hget, ?_, ?_, ?_⟩
  · intro hne
    have h0 : 0 < (generateTimeArray sampleRate duration).length :=
      List.length_pos.mpr hne
    rw [hget 0 h0]
    simp
  · intro i hi
    rw [hget _ hi, hget _ (by omega)]
    push_cast
    rw [div_sub_div_same]
    ring_nf
  · intro hsr i j hij hj
    rw [hget _ (by omega), hget _ hj]
    have hij' : (i : ℝ) < j := by exact_mod_cast hij
    exact div_lt_div_of_pos_right hij' hsr

/-- **C6** counterexample: the claim asserts monotone increase for *every*
`sampleRate` and `duration`, but at `sampleRate = -2`, `duration = -1` the
code produces the nonempty time base `[0, -1/2]`, which decreases. -/
theorem generateTimeArray_counterexample :
    (generateTimeArray (-2) (-1)).length = 2 ∧
    (generateTimeArray (-2) (-1)).getD 1 0 < (generateTimeArray (-2) (-1)).getD 0 0 := by
  have h2 : ((⌊(-2 : ℝ) * (-1)⌋).toNat) = 2 := by
    have hf : ⌊(-2 : ℝ) * (-1)⌋ = 2 := by norm_num
    rw [hf]
    rfl
  constructor
  · rw [generateTimeArray, List.length_map, List.length_range, h2]
  · rw [generateTimeArray, h2]
    norm_num [List.range_succ]

/-- Witness for C6 at `sampleRate = 2000`, `duration = 3/10`: 600 samples,
`t[0] = 0`, spacing `1/2000` at index 5, and `t[1] < t[2]`. -/
theorem generateTimeArray_spec_witness :
    (generateTimeArray 2000 (3/10)).length = (⌊(2000 : ℝ) * (3/10)⌋).toNat ∧
    (generateTimeArray 2000 (3/10)).getD 0 0 = 0 ∧
    (generateTimeArray 2000 (3/10)).getD 6 0 - (generateTimeArray 2000 (3/10)).getD 5 0 =
      1 / 2000 ∧
    (generateTimeArray 2000 (3/10)).getD 1 0 < (generateTimeArray 2000 (3/10)).getD 2 0 := by
  have h := generateTimeArray_spec 2000 (3/10)
  have hlen : (generateTimeArray 2000 (3/10)).length = 600 := by
    rw [h.1]
    have hf : ⌊(2000 : ℝ) * (3/10)⌋ = 600 := by norm_num
    rw [hf]
    rfl
  refine ⟨h.1, h.2.2.1 ?_, h.2.2.2.1 5 ?_, h.2.2.2.2 (by norm_num) 1 2 ?_ ?_⟩
  · intro hnil
    rw [hnil] at hlen
    simp at hlen
  · omega
  · omega
  · omega

/-- **C8**: for every time base `t`, every parameter record, and every type
string outside the seven recognized families, `generateSignal` returns a
signal of the same length as `t` with every sample equal to `0` (the
defined fallback; the embedding is total, so no error is raised). -/
theorem generateSignal_unknown_type (type : String) (t : List ℝ) (params : SignalParams)
    (h : type ∉ (["sine", "cosine", "square", "sawtooth", "am", "fm", "chirp"] : List String)) :
    generateSignal type t params = List.replicate t.length 0 ∧
    (generateSignal type t params).length = t.length ∧
    (∀ i, i < (generateSignal type t params).length →
      (generateSignal type t params).getD i 0 = 0) := by
  simp only [List.mem_cons, List.mem_singleton, not_or] at h
  obtain ⟨h1, h2, h3, h4, h5, h6, h7, -⟩ := h
  have hz : generateSignal type t params = List.replicate t.length 0 := by
    unfold generateSignal
    split
    any_goals simp_all
  refine ⟨hz, ?_, ?_⟩
  · rw [hz, List.length_replicate]
  · intro i hi
    rw [hz] at hi ⊢
    rw [List.getD_eq_getElem _ _ hi, List.getElem_replicate]

/-- Witness for C8: the unrecognized selector `"noise"` on a two-sample
time base yields the all-zero signal. -/
theorem generateSignal_unknown_type_witness :
    generateSignal "noise" [0, 1] ⟨0, none, 0, 0, none, 0⟩ = List.replicate 2 0 ∧
    (generateSignal "noise" [0, 1] ⟨0, none, 0, 0, none, 0⟩).length = 2 ∧
    (∀ i, i < (generateSignal "noise" [0, 1] ⟨0, none, 0, 0, none, 0⟩).length →
      (generateSignal "noise" [0, 1] ⟨0, none, 0, 0, none, 0⟩).getD i 0 = 0) := by
  have h := generateSignal_unknown_type "noise" [0, 1] ⟨0, none, 0, 0, none, 0⟩ (by decide)
  exact ⟨h.1, h.2.1, h.2.2⟩

/-- `Math.max(...magnitudes)` for a nonempty list (JS evaluates to
`-Infinity` on an empty spread; every claim restricts to nonempty lists,
so the empty case is given the harmless value `0`). -/
def listMax : List ℝ → ℝ
  | [] => 0
  | x :: xs => xs.foldl max x

/-- Embeds `toDb(magnitudes, floor)`:
`val = m > 0 ? 20·log10(m / max) : floor`, then `Math.max(val, floor)`. -/
def toDb (magnitudes : List ℝ) (floor : ℝ) : List ℝ :=
  magnitudes.map (fun m =>
    max (if 0 < m then 20 * Real.logb 10 (m / listMax magnitudes) else floor) floor)

/-- **C4** counterexample: on the nonempty magnitude sequence `[0]` the
single entry equals the sequence maximum, yet `toDb [0] (-80) = [-80]`,
not `0` dB — the claim fails when the maximum is not positive. -/
theorem toDb_counterexample :
    ([(0 : ℝ)] ≠ []) ∧ ([(0 : ℝ)].getD 0 0 = listMax [0]) ∧
    toDb [(0 : ℝ)] (-80) = [-80] ∧ ((-80 : ℝ) ≠ 0) := by
  refine ⟨by simp, by simp [listMax], ?_, by norm_num⟩
  simp [toDb, listMax]

/-- **C4** (amended): for every nonempty magnitude sequence whose maximum
is *positive*, and every floor `≤ 0`, `toDb` maps entries equal to the
maximum to exactly `0` dB, maps exactly-zero entries to the floor, and
clamps every output at or above the floor (so no `-∞`/`NaN` arises from
zero or negative magnitudes). -/
theorem toDb_spec (mags : List ℝ) (floor : ℝ) (hne : mags ≠ [])
    (hmax : 0 < listMax mags) (hfl : floor ≤ 0) :
    (toDb mags floor).length = mags.length ∧
    (∀ i, i < mags.length → mags.getD i 0 = listMax mags →
      (toDb mags floor).getD i 0 = 0) ∧
    (∀ i, i < mags.length → mags.getD i 0 = 0 →
      (toDb mags floor).getD i 0 = floor) ∧
    (∀ i, i < mags.length → floor ≤ (toDb mags floor).getD i 0) := by
  have hlen : (toDb mags floor).length = mags.length := by
    rw [toDb, List.length_map]
  have hget : ∀ i, i < mags.length → (toDb mags floor).getD i 0 =
      max (if 0 < mags.getD i 0 then
        20 * Real.logb 10 (mags.getD i 0 / listMax mags) else floor) floor := by
    intro i hi
    have hi' : i < (toDb mags floor).length := hlen ▸ hi
    rw [List.getD_eq_getElem _ _ hi', List.getD_eq_getElem _ _ hi]
    simp [toDb]
  refine ⟨hlen, ?_, ?_, ?_⟩
  · intro i hi hm
    rw [hget i hi, hm, if_pos hmax, div_self (ne_of_gt hmax), Real.logb_one, mul_zero]
    exact max_eq_left hfl
  · intro i hi hm
    rw [hget i hi, hm, if_neg (lt_irrefl 0), max_self]
  · intro i hi
    rw [hget i hi]
    exact le_max_right _ _

/-- Witness for C4 at `mags = [1/2, 1]`, `floor = -80`: the maximal entry
(index 1) maps to `0` dB and the output at index 0 is clamped at `-80`. -/
theorem toDb_spec_witness :
    (toDb [1/2, 1] (-80)).getD 1 0 = 0 ∧
    (-80 : ℝ) ≤ (toDb [1/2, 1] (-80)).getD 0 0 := by
  have hmax : listMax [1/2, 1] = 1 := by
    simp [listMax]
    norm_num
  have h := toDb_spec [1/2, 1] (-80) (by simp) (by rw [hmax]; norm_num) (by norm_num)
  refine ⟨h.2.1 1 (by norm_num) ?_, h.2.2.2 0 (by norm_num)⟩
  rw [hmax]
  norm_num

/-- Result of the SNR computation in the reconstruction pipeline:
the string `'0.0'` returned for a degenerate (empty) trimmed region, the
string `'∞'` returned for zero error power, or a finite dB value
(the JS `.toFixed(1)` display rounding is not modelled). -/
inductive SNRResult where
  | sentinelZero : SNRResult
  | sentinelInf : SNRResult
  | value : ℝ → SNRResult

/-- Embeds the `reconstructionSNR` computation:
`delay = Math.floor(taps / 2)`, `start = delay + 10`,
`end = original.length - delay - 10`; if `end <= start` return the `'0.0'`
sentinel; otherwise compute `dotProd`, `reconPow`, the least-squares
`scale` (`1` when `reconPow` is not positive), `sigPow` and `errPow` over
`[start, end)`, returning `10·log10(sigPow / errPow)` or the `'∞'`
sentinel when `errPow` is not positive.  (JS `end` may go negative; since
it is only compared against `start ≥ 10`, truncated `ℕ` subtraction gives
the same branch.) -/
def reconstructionSNR (original reconstructed : List ℝ) (taps : ℕ) : SNRResult :=
  let delay := taps / 2
  let start := delay + 10
  let stop := original.length - delay - 10
  if stop ≤ start then .sentinelZero
  else
    let o : ℕ → ℝ := fun i => original.getD i 0
    let r : ℕ → ℝ := fun i => reconstructed.getD i 0
    let dotProd := ∑ i ∈ Finset.Ico start stop, o i * r i
    let reconPow := ∑ i ∈ Finset.Ico start stop, r i * r i
    let scale := if 0 < reconPow then dotProd / reconPow else 1
    let sigPow := ∑ i ∈ Finset.Ico start stop, o i * o i
    let errPow := ∑ i ∈ Finset.Ico start stop, (o i - scale * r i) * (o i - scale * r i)
    if 0 < errPow then .value (10 * Real.logb 10 (sigPow / errPow)) else .sentinelInf

/-- If a finite sum of squares vanishes, each term vanishes. -/
theorem sq_sum_zero_term {s : Finset ℕ} {r : ℕ → ℝ}
    (h : ∑ i ∈ s, r i * r i = 0) : ∀ i ∈ s, r i = 0 := by
  intro i hi
  have hterm : ∀ j ∈ s, 0 ≤ r j * r j := fun j _ => mul_self_nonneg (r j)
  have := (Finset.sum_eq_zero_iff_of_nonneg hterm).mp h i hi
  exact mul_self_eq_zero.mp this

/-- **C5**: the SNR estimator trims `floor(taps/2) + 10` samples from both
ends; an empty trimmed region yields the `'0.0'` sentinel; otherwise, with
`c = Σ(o·r)/Σ(r·r)` the least-squares scale over the trimmed region (the
division-by-zero convention of ℝ agrees with the code's `scale = 1`
fallback, because `Σ(r·r) = 0` forces `r = 0` on the region), the result
is the `'∞'` sentinel when `Σ(o − c·r)² = 0` and otherwise the value
`10·log10(Σ o² / Σ(o − c·r)²)`; the function is total, so no fault is
raised. -/
theorem reconstructionSNR_spec (original reconstructed : List ℝ) (taps : ℕ)
    (hlen : reconstructed.length = original.length) :
    (original.length - taps / 2 - 10 ≤ taps / 2 + 10 →
      reconstructionSNR original reconstructed taps = .sentinelZero) ∧
    (∀ start stop : ℕ, start = taps / 2 + 10 → stop = original.length - taps / 2 - 10 →
      start < stop →
      (∑ i ∈ Finset.Ico start stop,
          (original.getD i 0 -
            ((∑ i ∈ Finset.Ico start stop, original.getD i 0 * reconstructed.getD i 0) /
              (∑ i ∈ Finset.Ico start stop, reconstructed.getD i 0 * reconstructed.getD i 0)) *
            reconstructed.getD i 0) *
          (original.getD i 0 -
            ((∑ i ∈ Finset.Ico start stop, original.getD i 0 * reconstructed.getD i 0) /
              (∑ i ∈ Finset.Ico start stop, reconstructed.getD i 0 * reconstructed.getD i 0)) *
            reconstructed.getD i 0) = 0 →
        reconstructionSNR original reconstructed taps = .sentinelInf) ∧
      (∀ errPow : ℝ,
        errPow = ∑ i ∈ Finset.Ico start stop,
          (original.getD i 0 -
            ((∑ i ∈ Finset.Ico start stop, original.getD i 0 * reconstructed.getD i 0) /
              (∑ i ∈ Finset.Ico start stop, reconstructed.getD i 0 * reconstructed.getD i 0)) *
            reconstructed.getD i 0) *
          (original.getD i 0 -
            ((∑ i ∈ Finset.Ico start stop, original.getD i 0 * reconstructed.getD i 0) /
              (∑ i ∈ Finset.Ico start stop, reconstructed.getD i 0 * reconstructed.getD i 0)) *
            reconstructed.getD i 0) →
        0 < errPow →
        reconstructionSNR original reconstructed taps =
          .value (10 * Real.logb 10
            ((∑ i ∈ Finset.Ico start stop, original.getD i 0 * original.getD i 0) / errPow)))) := by
  constructor
  · intro hdeg
    rw [reconstructionSNR, if_pos hdeg]
  · intro start stop hstart hstop hlt
    subst hstart hstop
    set start := taps / 2 + 10 with hstartdef
    set stop := original.length - taps / 2 - 10 with hstopdef
    set o : ℕ → ℝ := fun i => original.getD i 0 with ho
    set r : ℕ → ℝ := fun i => reconstructed.getD i 0 with hr
    set reconPow := ∑ i ∈ Finset.Ico start stop, r i * r i with hrp
    set dotProd := ∑ i ∈ Finset.Ico start stop, o i * r i with hdp
    -- the code's scale (with the `reconPow = 0 → 1` fallback) yields the same
    -- error power as the claim's `c = dotProd / reconPow` (ℝ convention `x/0 = 0`)
    have herr_eq :
        (∑ i ∈ Finset.Ico start stop,
          (o i - (if 0 < reconPow then dotProd / reconPow else 1) * r i) *
          (o i - (if 0 < reconPow then dotProd / reconPow else 1) * r i)) =
        ∑ i ∈ Finset.Ico start stop,
          (o i - dotProd / reconPow * r i) * (o i - dotProd / reconPow * r i) := by
      by_cases hpos : 0 < reconPow
      · rw [if_pos hpos]
      · rw [if_neg hpos]
        have hrp0 : reconPow = 0 := le_antisymm (not_lt.mp hpos)
          (Finset.sum_nonneg fun i _ => mul_self_nonneg (r i))
        have hsum0 : ∑ i ∈ Finset.Ico start stop, r i * r i = 0 := by
          rw [← hrp]
          exact hrp0
        have hzero := sq_sum_zero_term hsum0
        refine Finset.sum_congr rfl fun i hi => ?_
        rw [hzero i hi, mul_zero, mul_zero]
    constructor
    · intro herr0
      rw [reconstructionSNR, if_neg (not_le.mpr hlt)]
      simp only [← ho, ← hr, ← hrp, ← hdp]
      rw [if_neg]
      rw [herr_eq]
      rw [herr0]
      exact lt_irrefl 0
    · intro errPow herrdef hpos
      rw [reconstructionSNR, if_neg (not_le.mpr hlt)]
      simp only [← ho, ← hr, ← hrp, ← hdp]
      rw [herr_eq, ← herrdef, if_pos hpos]

/-- Witness for C5: `original = reconstructed = [1]`, `taps = 0` — the
trimmed region is empty, so the `'0.0'` sentinel is returned. -/
theorem reconstructionSNR_spec_witness :
    reconstructionSNR [1] [1] 0 = SNRResult.sentinelZero :=
  (reconstructionSNR_spec [1] [1] 0 rfl).1 (by norm_num)

/-- Embeds `movingAverageLPF(signal, taps)` from `src/dsp/filters.js`:
`halfTaps = Math.floor(taps / 2)`; for each `i`, sum `signal[i + j]` over
offsets `j ∈ [-halfTaps, halfTaps]` whose index lands in range, and divide
by the number of in-range samples. -/
def movingAverageLPF_taps (signal : List ℝ) (taps : ℕ) : List ℝ :=
  (List.range signal.length).map (fun i : ℕ =>
    let s := (Finset.Icc (-(taps / 2 : ℕ) : ℤ) (taps / 2 : ℕ)).filter
      (fun j => 0 ≤ (i : ℤ) + j ∧ (i : ℤ) + j < (signal.length : ℤ))
    (∑ j ∈ s, signal.getD ((i : ℤ) + j).toNat 0) / (s.card : ℝ))

/-- Embeds `movingAverageLPF(signal, windowSize)` from `src/dsp/filter.js`:
`lo = max(0, i - windowSize)`, `hi = min(signal.length - 1, i + windowSize)`,
output is the mean of `signal[lo..hi]`. -/
def movingAverageLPF_window (signal : List ℝ) (windowSize : ℕ) : List ℝ :=
  (List.range signal.length).map (fun i : ℕ =>
    let lo := i - windowSize
    let hi := min (signal.length - 1) (i + windowSize)
    (∑ j ∈ Finset.Icc lo hi, signal.getD j 0) / ((Finset.Icc lo hi).card : ℝ))

/-- The in-range offset set of the `filters.js` moving average is the
clipped index window of the `filter.js` one, reindexed by `m ↦ m - i`. -/
theorem movingAverage_index_set (len h i : ℕ) (hi : i < len) :
    (Finset.Icc (-(h : ℕ) : ℤ) (h : ℕ)).filter
      (fun j => 0 ≤ (i : ℤ) + j ∧ (i : ℤ) + j < (len : ℤ)) =
      (Finset.Icc (i - h) (min (len - 1) (i + h))).image (fun m : ℕ => (m : ℤ) - i) := by
  ext j
  simp only [Finset.mem_filter, Finset.mem_Icc, Finset.mem_image]
  constructor
  · rintro ⟨⟨hjl, hju⟩, hge, hlt⟩
    exact ⟨((i : ℤ) + j).toNat, by omega, by omega⟩
  · rintro ⟨m, ⟨hml, hmu⟩, rfl⟩
    omega

/-- **C10**: for every signal and tap count, the `filters.js` moving
average with `taps` equals the `filter.js` moving average with
`windowSize = floor(taps/2)`, and both compute, at each index `i`, the
mean of the input over `[i − floor(taps/2), i + floor(taps/2)]` clipped to
the valid range, dividing by the number of in-range samples. -/
theorem movingAverageLPF_equiv (signal : List ℝ) (taps : ℕ) :
    movingAverageLPF_taps signal taps = movingAverageLPF_window signal (taps / 2) ∧
    (∀ i, i < signal.length →
      (movingAverageLPF_taps signal taps).getD i 0 =
        (∑ j ∈ Finset.Icc (i - taps / 2) (min (signal.length - 1) (i + taps / 2)),
          signal.getD j 0) /
        (((Finset.Icc (i - taps / 2) (min (signal.length - 1) (i + taps / 2))).card : ℝ))) := by
  have hpt : ∀ i, i < signal.length →
      (let s := (Finset.Icc (-(taps / 2 : ℕ) : ℤ) (taps / 2 : ℕ)).filter
        (fun j => 0 ≤ (i : ℤ) + j ∧ (i : ℤ) + j < (signal.length : ℤ))
       (∑ j ∈ s, signal.getD ((i : ℤ) + j).toNat 0) / (s.card : ℝ)) =
      (∑ j ∈ Finset.Icc (i - taps / 2) (min (signal.length - 1) (i + taps / 2)),
        signal.getD j 0) /
      (((Finset.Icc (i - taps / 2) (min (signal.length - 1) (i + taps / 2))).card : ℝ)) := by
    intro i hi
    show (∑ j ∈ _, _) / _ = _
    rw [movingAverage_index_set signal.length (taps / 2) i hi]
    rw [Finset.sum_image (by
      intro x hx y hy hxy
      have hxy2 : (x : ℤ) - i = (y : ℤ) - i := hxy
      omega)]
    rw [Finset.card_image_of_injOn (by
      intro x hx y hy hxy
      have hxy2 : (x : ℤ) - i = (y : ℤ) - i := hxy
      omega)]
    congr 1
    refine Finset.sum_congr rfl fun m hm => ?_
    congr 1
    omega
  have heq : movingAverageLPF_taps signal taps =
      movingAverageLPF_window signal (taps / 2) := by
    unfold movingAverageLPF_taps movingAverageLPF_window
    refine List.map_congr_left fun i hmem => ?_
    have hi : i < signal.length := List.mem_range.mp hmem
    exact hpt i hi
  refine ⟨heq, ?_⟩
  intro i hi
  rw [heq]
  have hlen : (movingAverageLPF_window signal (taps / 2)).length = signal.length := by
    rw [movingAverageLPF_window, List.length_map, List.length_range]
  rw [List.getD_eq_getElem _ _ (hlen ▸ hi)]
  simp only [movingAverageLPF_window, List.getElem_map, List.getElem_range]

/-- Witness for C10 at `signal = [1, 2, 4]`, `taps = 3`, index `0`. -/
theorem movingAverageLPF_equiv_witness :
    movingAverageLPF_taps [1, 2, 4] 3 = movingAverageLPF_window [1, 2, 4] 1 ∧
    (movingAverageLPF_taps [1, 2, 4] 3).getD 0 0 =
      (∑ j ∈ Finset.Icc (0 - 3 / 2) (min (([1, 2, 4] : List ℝ).length - 1) (0 + 3 / 2)),
        ([1, 2, 4] : List ℝ).getD j 0) /
      (((Finset.Icc (0 - 3 / 2) (min (([1, 2, 4] : List ℝ).length - 1) (0 + 3 / 2))).card : ℝ)) := by
  have h := movingAverageLPF_equiv [1, 2, 4] 3
  exact ⟨h.1, h.2 0 (by norm_num)⟩

/-- Unnormalized windowed-sinc kernel built inside `sincLPF` in
`src/dsp/filters.js`: normalized cutoff, center tap `2·fc`, off-center taps
`sin(2π·fc·n)/(π·n)` (`n = i - halfTaps`), Hamming window
`0.54 - 0.46·cos(2π·i/(taps-1))`. -/
def rawKernelHamming (fc : ℝ) (taps : ℕ) : List ℝ :=
  (List.range taps).map (fun i : ℕ =>
    let n : ℤ := (i : ℤ) - (taps / 2 : ℕ)
    (if n = 0 then 2 * fc
     else Real.sin (2 * Real.pi * fc * (n : ℝ)) / (Real.pi * (n : ℝ))) *
    (0.54 - 0.46 * Real.cos ((2 * Real.pi * (i : ℝ)) / ((taps : ℝ) - 1))))

/-- Unnormalized windowed-sinc kernel built inside `sincLPF` in
`src/dsp/filter.js`: Hz cutoff (`fc = cutoffFreq / sampleRate`), center tap
`2π·fc`, off-center taps `sin(2π·fc·n)/n`, Blackman window
`0.42 - 0.5·cos(2π·i/(taps-1)) + 0.08·cos(4π·i/(taps-1))`. -/
def rawKernelBlackman (cutoffFreq sampleRate : ℝ) (taps : ℕ) : List ℝ :=
  (List.range taps).map (fun i : ℕ =>
    let fc := cutoffFreq / sampleRate
    let n : ℤ := (i : ℤ) - (taps / 2 : ℕ)
    (if n = 0 then 2 * Real.pi * fc
     else Real.sin (2 * Real.pi * fc * (n : ℝ)) / (n : ℝ)) *
    (0.42 - 0.5 * Real.cos ((2 * Real.pi * (i : ℝ)) / ((taps : ℝ) - 1)) +
      0.08 * Real.cos ((4 * Real.pi * (i : ℝ)) / ((taps : ℝ) - 1))))

/-- The normalized kernel of the `filters.js` `sincLPF` (each tap divided
by the pre-normalization sum). -/
def sincKernelHamming (fc : ℝ) (taps : ℕ) : List ℝ :=
  (rawKernelHamming fc taps).map (fun x => x / (rawKernelHamming fc taps).sum)

/-- The normalized kernel of the `filter.js` `sincLPF`. -/
def sincKernelBlackman (cutoffFreq sampleRate : ℝ) (taps : ℕ) : List ℝ :=
  (rawKernelBlackman cutoffFreq sampleRate taps).map
    (fun x => x / (rawKernelBlackman cutoffFreq sampleRate taps).sum)

/-- The convolution loop of `sincLPF` in `src/dsp/filters.js`: sliding dot
product against the kernel, skipping out-of-range input indices. -/
def sincLPF_norm (signal : List ℝ) (cutoffNormalized : ℝ) (taps : ℕ) : List ℝ :=
  (List.range signal.length).map (fun i : ℕ =>
    ∑ j ∈ Finset.range taps,
      if 0 ≤ (i : ℤ) - (taps / 2 : ℕ) + (j : ℤ) ∧
          (i : ℤ) - (taps / 2 : ℕ) + (j : ℤ) < (signal.length : ℤ)
      then signal.getD ((i : ℤ) - (taps / 2 : ℕ) + (j : ℤ)).toNat 0 *
        (sincKernelHamming cutoffNormalized taps).getD j 0
      else 0)

/-- The convolution loop of `sincLPF` in `src/dsp/filter.js`. -/
def sincLPF_hz (signal : List ℝ) (cutoffFreq sampleRate : ℝ) (taps : ℕ) : List ℝ :=
  (List.range signal.length).map (fun i : ℕ =>
    ∑ j ∈ Finset.range taps,
      if 0 ≤ (i : ℤ) - (taps / 2 : ℕ) + (j : ℤ) ∧
          (i : ℤ) - (taps / 2 : ℕ) + (j : ℤ) < (signal.length : ℤ)
      then signal.getD ((i : ℤ) - (taps / 2 : ℕ) + (j : ℤ)).toNat 0 *
        (sincKernelBlackman cutoffFreq sampleRate taps).getD j 0
      else 0)

/-- Symmetry of the raw Hamming-windowed sinc kernel for odd tap counts. -/
theorem rawKernelHamming_symm (fc : ℝ) (taps : ℕ) (hodd : taps % 2 = 1)
    (i : ℕ) (hi : i < taps) :
    (rawKernelHamming fc taps).getD i 0 = (rawKernelHamming fc taps).getD (taps - 1 - i) 0 := by
  have hlen : (rawKernelHamming fc taps).length = taps := by
    rw [rawKernelHamming, List.length_map, List.length_range]
  have hi2 : taps - 1 - i < taps := by omega
  have hiL : i < (rawKernelHamming fc taps).length := by rw [hlen]; exact hi
  have hiL2 : taps - 1 - i < (rawKernelHamming fc taps).length := by rw [hlen]; exact hi2
  rw [List.getD_eq_getElem _ _ hiL, List.getD_eq_getElem _ _ hiL2]
  simp only [rawKernelHamming, List.getElem_map, List.getElem_range]
  by_cases hsame : taps - 1 - i = i
  · rw [hsame]
  · have hh : 1 ≤ taps / 2 := by omega
    have hne : ((i : ℤ) - (taps / 2 : ℕ)) ≠ 0 := by omega
    have hne2 : (((taps - 1 - i : ℕ) : ℤ) - (taps / 2 : ℕ)) ≠ 0 := by omega
    rw [if_neg hne, if_neg hne2]
    have htaps : (taps : ℝ) = 2 * ((taps / 2 : ℕ) : ℝ) + 1 := by
      exact_mod_cast congrArg (Nat.cast : ℕ → ℝ) (by omega : taps = 2 * (taps / 2) + 1)
    have hXZ : (((taps - 1 - i : ℕ) : ℤ) - (taps / 2 : ℕ)) =
        -((i : ℤ) - (taps / 2 : ℕ)) := by omega
    have hX : (((((taps - 1 - i : ℕ) : ℤ) - (taps / 2 : ℕ)) : ℤ) : ℝ) =
        -((((i : ℤ) - (taps / 2 : ℕ) : ℤ)) : ℝ) := by
      rw [hXZ]
      push_cast
      ring
    have hni : ((taps - 1 - i : ℕ) : ℝ) = ((taps : ℝ) - 1) - i := by
      push_cast [show (1 : ℕ) ≤ taps from by omega, show i ≤ taps - 1 from by omega]
      ring
    have hW2 : Real.cos ((2 * Real.pi * ((taps - 1 - i : ℕ) : ℝ)) / ((taps : ℝ) - 1)) =
        Real.cos ((2 * Real.pi * (i : ℝ)) / ((taps : ℝ) - 1)) := by
      rw [hni]
      have hdpos : (0 : ℝ) < (taps : ℝ) - 1 := by
        have : (1 : ℝ) ≤ ((taps / 2 : ℕ) : ℝ) := by exact_mod_cast hh
        linarith
      have harg : (2 * Real.pi * (((taps : ℝ) - 1) - i)) / ((taps : ℝ) - 1) =
          2 * Real.pi - (2 * Real.pi * (i : ℝ)) / ((taps : ℝ) - 1) := by
        field_simp
        ring
      rw [harg, Real.cos_two_pi_sub]
    rw [hX, hW2, mul_neg, mul_neg, Real.sin_neg, neg_div_neg_eq]

/-- Symmetry of the raw Blackman-windowed sinc kernel for odd tap counts. -/
theorem rawKernelBlackman_symm (cutoffFreq sampleRate : ℝ) (taps : ℕ) (hodd : taps % 2 = 1)
    (i : ℕ) (hi : i < taps) :
    (rawKernelBlackman cutoffFreq sampleRate taps).getD i 0 =
      (rawKernelBlackman cutoffFreq sampleRate taps).getD (taps - 1 - i) 0 := by
  have hlen : (rawKernelBlackman cutoffFreq sampleRate taps).length = taps := by
    rw [rawKernelBlackman, List.length_map, List.length_range]
  have hi2 : taps - 1 - i < taps := by omega
  have hiL : i < (rawKernelBlackman cutoffFreq sampleRate taps).length := by
    rw [hlen]; exact hi
  have hiL2 : taps - 1 - i < (rawKernelBlackman cutoffFreq sampleRate taps).length := by
    rw [hlen]; exact hi2
  rw [List.getD_eq_getElem _ _ hiL, List.getD_eq_getElem _ _ hiL2]
  simp only [rawKernelBlackman, List.getElem_map, List.getElem_range]
  by_cases hsame : taps - 1 - i = i
  · rw [hsame]
  · have hh : 1 ≤ taps / 2 := by omega
    have hne : ((i : ℤ) - (taps / 2 : ℕ)) ≠ 0 := by omega
    have hne2 : (((taps - 1 - i : ℕ) : ℤ) - (taps / 2 : ℕ)) ≠ 0 := by omega
    rw [if_neg hne, if_neg hne2]
    have htaps : (taps : ℝ) = 2 * ((taps / 2 : ℕ) : ℝ) + 1 := by
      exact_mod_cast congrArg (Nat.cast : ℕ → ℝ) (by omega : taps = 2 * (taps / 2) + 1)
    have hXZ : (((taps - 1 - i : ℕ) : ℤ) - (taps / 2 : ℕ)) =
        -((i : ℤ) - (taps / 2 : ℕ)) := by omega
    have hX : (((((taps - 1 - i : ℕ) : ℤ) - (taps / 2 : ℕ)) : ℤ) : ℝ) =
        -((((i : ℤ) - (taps / 2 : ℕ) : ℤ)) : ℝ) := by
      rw [hXZ]
      push_cast
      ring
    have hdpos : (0 : ℝ) < (taps : ℝ) - 1 := by
      have : (1 : ℝ) ≤ ((taps / 2 : ℕ) : ℝ) := by exact_mod_cast hh
      linarith
    have hni : ((taps - 1 - i : ℕ) : ℝ) = ((taps : ℝ) - 1) - i := by
      push_cast [show (1 : ℕ) ≤ taps from by omega, show i ≤ taps - 1 from by omega]
      ring
    have hW2 : Real.cos ((2 * Real.pi * ((taps - 1 - i : ℕ) : ℝ)) / ((taps : ℝ) - 1)) =
        Real.cos ((2 * Real.pi * (i : ℝ)) / ((taps : ℝ) - 1)) := by
      rw [hni]
      have harg : (2 * Real.pi * (((taps : ℝ) - 1) - i)) / ((taps : ℝ) - 1) =
          2 * Real.pi - (2 * Real.pi * (i : ℝ)) / ((taps : ℝ) - 1) := by
        field_simp
        ring
      rw [harg, Real.cos_two_pi_sub]
    have hW4 : Real.cos ((4 * Real.pi * ((taps - 1 - i : ℕ) : ℝ)) / ((taps : ℝ) - 1)) =
        Real.cos ((4 * Real.pi * (i : ℝ)) / ((taps : ℝ) - 1)) := by
      rw [hni]
      have harg : (4 * Real.pi * (((taps : ℝ) - 1) - i)) / ((taps : ℝ) - 1) =
          ((2 : ℕ) : ℝ) * (2 * Real.pi) - (4 * Real.pi * (i : ℝ)) / ((taps : ℝ) - 1) := by
        push_cast
        field_simp
        ring
      rw [harg, Real.cos_nat_mul_two_pi_sub]
    rw [hX, hW2, hW4, mul_neg, Real.sin_neg, neg_div_neg_eq]

/-- Summing a list divided termwise by a constant divides the sum. -/
theorem list_sum_map_div (l : List ℝ) (c : ℝ) :
    (l.map (fun x => x / c)).sum = l.sum / c := by
  induction l with
  | nil => simp
  | cons a t ih => simp [ih, add_div]

/-- Termwise division preserves an equality of entries. -/
theorem normalized_getD_symm (l : List ℝ) (c : ℝ) (i j : ℕ)
    (hi : i < l.length) (hj : j < l.length)
    (hsym : l.getD i 0 = l.getD j 0) :
    (l.map (fun x => x / c)).getD i 0 = (l.map (fun x => x / c)).getD j 0 := by
  have hi' : i < (l.map (fun x => x / c)).length := by simpa using hi
  have hj' : j < (l.map (fun x => x / c)).length := by simpa using hj
  rw [List.getD_eq_getElem _ _ hi', List.getD_eq_getElem _ _ hj', List.getElem_map,
    List.getElem_map]
  rw [List.getD_eq_getElem _ _ hi, List.getD_eq_getElem _ _ hj] at hsym
  rw [hsym]

/-- **C7**: for every odd tap count and any cutoffs, provided the
pre-normalization kernel sums are nonzero, both windowed-sinc kernels
(the `filters.js` Hamming / normalized-cutoff variant and the `filter.js`
Blackman / Hz-cutoff variant) have length `taps`, are symmetric around
their center index (`kernel[i] = kernel[taps-1-i]`), and sum exactly to 1
after normalization. -/
theorem sincKernel_spec (taps : ℕ) (fcN cutoff rate : ℝ) (hodd : taps % 2 = 1)
    (hs1 : (rawKernelHamming fcN taps).sum ≠ 0)
    (hs2 : (rawKernelBlackman cutoff rate taps).sum ≠ 0) :
    (sincKernelHamming fcN taps).length = taps ∧
    (sincKernelBlackman cutoff rate taps).length = taps ∧
    (∀ i, i < taps → (sincKernelHamming fcN taps).getD i 0 =
      (sincKernelHamming fcN taps).getD (taps - 1 - i) 0) ∧
    (∀ i, i < taps → (sincKernelBlackman cutoff rate taps).getD i 0 =
      (sincKernelBlackman cutoff rate taps).getD (taps - 1 - i) 0) ∧
    (sincKernelHamming fcN taps).sum = 1 ∧
    (sincKernelBlackman cutoff rate taps).sum = 1 := by
  have hlen1 : (rawKernelHamming fcN taps).length = taps := by
    rw [rawKernelHamming, List.length_map, List.length_range]
  have hlen2 : (rawKernelBlackman cutoff rate taps).length = taps := by
    rw [rawKernelBlackman, List.length_map, List.length_range]
  refine ⟨?_, ?_, ?_, ?_, ?_, ?_⟩
  · rw [sincKernelHamming, List.length_map, hlen1]
  · rw [sincKernelBlackman, List.length_map, hlen2]
  · intro i hi
    have hi2 : taps - 1 - i < taps := by omega
    exact normalized_getD_symm _ _ _ _ (by rw [hlen1]; exact hi) (by rw [hlen1]; exact hi2)
      (rawKernelHamming_symm fcN taps hodd i hi)
  · intro i hi
    have hi2 : taps - 1 - i < taps := by omega
    exact normalized_getD_symm _ _ _ _ (by rw [hlen2]; exact hi) (by rw [hlen2]; exact hi2)
      (rawKernelBlackman_symm cutoff rate taps hodd i hi)
  · rw [sincKernelHamming, list_sum_map_div, div_self hs1]
  · rw [sincKernelBlackman, list_sum_map_div, div_self hs2]

/-- Witness for C7 at `taps = 3` with normalized cutoff `1/2` (Hamming
variant) and cutoff `1` Hz at sample rate `4` (Blackman variant). -/
theorem sincKernel_spec_witness :
    (sincKernelHamming (1/2) 3).length = 3 ∧
    (sincKernelBlackman 1 4 3).length = 3 ∧
    (sincKernelHamming (1/2) 3).getD 0 0 = (sincKernelHamming (1/2) 3).getD 2 0 ∧
    (sincKernelBlackman 1 4 3).getD 0 0 = (sincKernelBlackman 1 4 3).getD 2 0 ∧
    (sincKernelHamming (1/2) 3).sum = 1 ∧
    (sincKernelBlackman 1 4 3).sum = 1 := by
  have hsum1 : (rawKernelHamming (1/2) 3).sum = 1 := by
    simp only [rawKernelHamming, List.range_succ, List.range_zero, List.map_append,
      List.map_cons, List.map_nil, List.sum_append, List.sum_cons, List.sum_nil,
      List.nil_append, List.cons_append]
    norm_num
    have hp : (2 : ℝ) * Real.pi * (1 / 2) = Real.pi := by ring
    rw [hp, Real.sin_pi]
    norm_num
  have hsum2 : (rawKernelBlackman 1 4 3).sum = Real.pi / 2 := by
    simp only [rawKernelBlackman, List.range_succ, List.range_zero, List.map_append,
      List.map_cons, List.map_nil, List.sum_append, List.sum_cons, List.sum_nil,
      List.nil_append, List.cons_append]
    norm_num
    have h42 : (4 : ℝ) * Real.pi / 2 = 2 * Real.pi := by ring
    have h4 : (4 : ℝ) * Real.pi = ((2 : ℕ) : ℝ) * (2 * Real.pi) := by
      push_cast
      ring
    rw [h42, h4, Real.cos_two_pi, Real.cos_nat_mul_two_pi]
    ring
  have hs1 : (rawKernelHamming (1/2) 3).sum ≠ 0 := by
    rw [hsum1]
    norm_num
  have hs2 : (rawKernelBlackman 1 4 3).sum ≠ 0 := by
    rw [hsum2]
    positivity
  have h := sincKernel_spec 3 (1/2) 1 4 (by norm_num) hs1 hs2
  refine ⟨h.1, h.2.1, ?_, ?_, h.2.2.2.2.1, h.2.2.2.2.2⟩
  · simpa using h.2.2.1 0 (by norm_num)
  · simpa using h.2.2.2.1 0 (by norm_num)

/-- Embeds `nextPow2(n)`: `p = 1; while (p < n) p <<= 1; return p`.
The `0 < p` conjunct is invariant (`p` starts at 1 and doubles) and makes
termination evident. -/
def nextPow2Go (n p : ℕ) : ℕ :=
  if h : 0 < p ∧ p < n then nextPow2Go n (2 * p) else p
termination_by n - p
decreasing_by
  omega

/-- `nextPow2` starts the doubling loop at `p = 1`. -/
def nextPow2 (n : ℕ) : ℕ := nextPow2Go n 1

/-- Loop invariant for `nextPow2Go`: starting from a power of two the loop
returns the least power of two that is `≥ n` (and at least the start). -/
theorem nextPow2Go_spec (n : ℕ) : ∀ j : ℕ,
    ∃ k, j ≤ k ∧ nextPow2Go n (2 ^ j) = 2 ^ k ∧ n ≤ 2 ^ k ∧
      (∀ m, j ≤ m → n ≤ 2 ^ m → k ≤ m) := by
  have main : ∀ d j, n - 2 ^ j = d →
      ∃ k, j ≤ k ∧ nextPow2Go n (2 ^ j) = 2 ^ k ∧ n ≤ 2 ^ k ∧
        (∀ m, j ≤ m → n ≤ 2 ^ m → k ≤ m) := by
    intro d
    induction d using Nat.strong_induction_on with
    | _ d ih =>
      intro j hd
      have hpos : 0 < 2 ^ j := Nat.pos_pow_of_pos j (by norm_num)
      by_cases hlt : 2 ^ j < n
      · have hstep : nextPow2Go n (2 ^ j) = nextPow2Go n (2 ^ (j + 1)) := by
          rw [nextPow2Go, dif_pos ⟨hpos, hlt⟩]
          congr 1
          rw [pow_succ]
          ring
        have hdec : n - 2 ^ (j + 1) < d := by
          have h2 : 2 ^ (j + 1) = 2 * 2 ^ j := by rw [pow_succ]; ring
          omega
        obtain ⟨k, hk1, hk2, hk3, hk4⟩ := ih (n - 2 ^ (j + 1)) hdec (j + 1) rfl
        refine ⟨k, by omega, by rw [hstep]; exact hk2, hk3, ?_⟩
        intro m hjm hnm
        have hjm2 : j + 1 ≤ m := by
          rcases Nat.eq_or_lt_of_le hjm with heq | h
          · exfalso
            rw [← heq] at hnm
            omega
          · omega
        exact hk4 m hjm2 hnm
      · refine ⟨j, le_refl j, ?_, by omega, fun m hjm _ => hjm⟩
        rw [nextPow2Go, dif_neg (by omega)]
  intro j
  exact main (n - 2 ^ j) j rfl

/-- `nextPow2 n` is the least power of two that is at least `n`. -/
theorem nextPow2_spec (n : ℕ) :
    ∃ k, nextPow2 n = 2 ^ k ∧ n ≤ 2 ^ k ∧ (∀ m, n ≤ 2 ^ m → k ≤ m) := by
  obtain ⟨k, -, h2, h3, h4⟩ := nextPow2Go_spec n 0
  refine ⟨k, ?_, h3, fun m hm => h4 m (Nat.zero_le m) hm⟩
  rw [nextPow2, ← h2, pow_zero]

/-- **C9**: for every input length `≥ 2` the padded FFT size
`N = nextPow2 len` is an *even* power of two at least `len` (so the half
size `N/2 = 2^(m-1)` used by `fftReal`'s output buffers and by
`fftComplex`'s shift is a genuine natural number), and it is the least
power of two `≥ len`; for lengths 0 and 1 the padded size is `N = 1`,
which is odd, so the half size `0.5` of the JS code is not a natural
number. -/
theorem nextPow2_fft_sizes :
    (∀ len : ℕ, 2 ≤ len →
      ∃ m, 1 ≤ m ∧ nextPow2 len = 2 ^ m ∧ len ≤ 2 ^ m ∧
        nextPow2 len % 2 = 0 ∧ nextPow2 len / 2 = 2 ^ (m - 1) ∧
        (∀ m2, len ≤ 2 ^ m2 → nextPow2 len ≤ 2 ^ m2)) ∧
    nextPow2 0 = 1 ∧ nextPow2 1 = 1 ∧ nextPow2 0 % 2 = 1 ∧ nextPow2 1 % 2 = 1 := by
  have h0 : nextPow2 0 = 1 := by
    rw [nextPow2, nextPow2Go, dif_neg (by omega)]
  have h1 : nextPow2 1 = 1 := by
    rw [nextPow2, nextPow2Go, dif_neg (by omega)]
  refine ⟨?_, h0, h1, by rw [h0], by rw [h1]⟩
  intro len hlen
  obtain ⟨k, hk1, hk2, hk3⟩ := nextPow2_spec len
  have hkpos : 1 ≤ k := by
    by_contra hc
    have hk0 : k = 0 := by omega
    rw [hk0, pow_zero] at hk2
    omega
  have hsplit : 2 ^ k = 2 * 2 ^ (k - 1) := by
    have := pow_succ 2 (k - 1)
    have hkk : k - 1 + 1 = k := by omega
    rw [hkk] at this
    omega
  refine ⟨k, hkpos, hk1, hk2, by omega, by omega, ?_⟩
  intro m2 hm2
  rw [hk1]
  exact Nat.pow_le_pow_right (by norm_num) (hk3 m2 hm2)

/-- Witness for C9 at `len = 5` (padded size 8). -/
theorem nextPow2_fft_sizes_witness :
    ∃ m, 1 ≤ m ∧ nextPow2 5 = 2 ^ m ∧ 5 ≤ 2 ^ m ∧
      nextPow2 5 % 2 = 0 ∧ nextPow2 5 / 2 = 2 ^ (m - 1) ∧
      (∀ m2, 5 ≤ 2 ^ m2 → nextPow2 5 ≤ 2 ^ m2) :=
  nextPow2_fft_sizes.1 5 (by norm_num)


/-- reversal of the k low bits -/
def bitRev : ℕ → ℕ → ℕ
  | 0, _ => 0
  | k + 1, m => m % 2 * 2 ^ k + bitRev k (m / 2)

theorem bitRev_lt (k : ℕ) : ∀ m, bitRev k m < 2 ^ k := by
  induction k with
  | zero => intro m; simp [bitRev]
  | succ k ih =>
    intro m
    have h1 : m % 2 ≤ 1 := by omega
    have h2 := ih (m / 2)
    have h3 : 2 ^ (k + 1) = 2 * 2 ^ k := by rw [pow_succ]; ring
    simp only [bitRev]
    nlinarith [h2, h1]

theorem bitRev_zero (k : ℕ) : bitRev k 0 = 0 := by
  induction k with
  | zero => rfl
  | succ k ih => simp [bitRev, ih]

theorem bitRev_msb (k m : ℕ) (hm : m < 2 ^ (k + 1)) :
    bitRev (k + 1) m = 2 * bitRev k (m % 2 ^ k) + m / 2 ^ k := by
  induction k generalizing m with
  | zero =>
    simp only [bitRev, pow_zero, pow_one] at *
    omega
  | succ k ih =>
    have hm2 : m / 2 < 2 ^ (k + 1) := by
      have : 2 ^ (k + 2) = 2 * 2 ^ (k + 1) := by rw [pow_succ]; ring
      omega
    have hB := ih (m / 2) hm2
    rw [show bitRev (k + 1 + 1) m = m % 2 * 2 ^ (k + 1) + bitRev (k + 1) (m / 2) from rfl]
    rw [hB]
    rw [show bitRev (k + 1) (m % 2 ^ (k + 1)) =
      m % 2 ^ (k + 1) % 2 * 2 ^ k + bitRev k (m % 2 ^ (k + 1) / 2) from rfl]
    have e1 : m % 2 ^ (k + 1) % 2 = m % 2 :=
      Nat.mod_mod_of_dvd m (dvd_pow_self 2 (Nat.succ_ne_zero k))
    have e2 : m % 2 ^ (k + 1) / 2 = m / 2 % 2 ^ k := by
      have h21 : (2 : ℕ) ^ (k + 1) = 2 * 2 ^ k := by rw [pow_succ]; ring
      rw [h21]
      rw [Nat.mod_mul_right_div_self]
    have e3 : m / 2 / 2 ^ k = m / 2 ^ (k + 1) := by
      rw [Nat.div_div_eq_div_mul]
      congr 1
      rw [pow_succ]
      ring
    rw [e1, e2, e3]
    have h3 : 2 ^ (k + 1) = 2 * 2 ^ k := by rw [pow_succ]; ring
    rcases (by omega : m % 2 = 0 ∨ m % 2 = 1) with hp | hp <;> rw [hp] <;> rw [h3] <;> ring_nf

theorem bitRev_bitRev (k : ℕ) : ∀ m, m < 2 ^ k → bitRev k (bitRev k m) = m := by
  induction k with
  | zero => intro m hm; interval_cases m; rfl
  | succ k ih =>
    intro m hm
    have hr : bitRev k (m / 2) < 2 ^ k := bitRev_lt k (m / 2)
    have hlt : bitRev (k + 1) m < 2 ^ (k + 1) := bitRev_lt (k + 1) m
    rw [bitRev_msb k _ hlt]
    simp only [bitRev]
    have e1 : (m % 2 * 2 ^ k + bitRev k (m / 2)) % 2 ^ k = bitRev k (m / 2) := by
      rw [mul_comm (m % 2) (2 ^ k), Nat.mul_add_mod]
      exact Nat.mod_eq_of_lt hr
    have e2 : (m % 2 * 2 ^ k + bitRev k (m / 2)) / 2 ^ k = m % 2 := by
      rw [mul_comm (m % 2) (2 ^ k), Nat.mul_add_div (Nat.pos_pow_of_pos k (by norm_num))]
      rw [Nat.div_eq_of_lt hr]
      omega
    rw [e1, e2]
    have hm2 : m / 2 < 2 ^ k := by
      have : 2 ^ (k + 1) = 2 * 2 ^ k := by rw [pow_succ]; ring
      omega
    rw [ih (m / 2) hm2]
    omega

theorem testBit_two_pow_add (k x i : ℕ) (hx : x < 2 ^ k) :
    (2 ^ k + x).testBit i = if i = k then true else x.testBit i := by
  rcases lt_trichotomy i k with hik | hik | hik
  · rw [if_neg (by omega)]
    rw [Nat.testBit_to_div_mod, Nat.testBit_to_div_mod]
    have hsplit : 2 ^ k = 2 ^ (k - i) * 2 ^ i := by
      rw [← pow_add]
      congr 1
      omega
    have hdiv : (2 ^ k + x) / 2 ^ i = x / 2 ^ i + 2 ^ (k - i) := by
      rw [hsplit, add_comm]
      exact Nat.add_mul_div_right x _ (Nat.pos_pow_of_pos i (by norm_num))
    rw [hdiv]
    obtain ⟨d, hd⟩ : ∃ d, k - i = d + 1 := ⟨k - i - 1, by omega⟩
    have heven : 2 ^ (k - i) = 2 * 2 ^ d := by
      rw [hd, pow_succ]
      ring
    rw [show (x / 2 ^ i + 2 ^ (k - i)) % 2 = x / 2 ^ i % 2 from by omega]
  · subst hik
    rw [if_pos rfl, Nat.testBit_to_div_mod]
    have hdiv : (2 ^ i + x) / 2 ^ i = 1 := by
      rw [add_comm, Nat.add_div_right x (Nat.pos_pow_of_pos i (by norm_num)),
        Nat.div_eq_of_lt hx]
    rw [hdiv]
    simp
  · rw [if_neg (by omega)]
    have h1 : (2 ^ k + x).testBit i = false := by
      apply Nat.testBit_lt_two_pow
      calc 2 ^ k + x < 2 ^ k + 2 ^ k := by omega
        _ = 2 ^ (k + 1) := by rw [pow_succ]; ring
        _ ≤ 2 ^ i := Nat.pow_le_pow_right (by norm_num) (by omega)
    have h2 : x.testBit i = false := by
      apply Nat.testBit_lt_two_pow
      calc x < 2 ^ k := hx
        _ ≤ 2 ^ i := Nat.pow_le_pow_right (by norm_num) (by omega)
    rw [h1, h2]

theorem and_two_pow_of_lt (k x : ℕ) (hx : x < 2 ^ k) : x &&& 2 ^ k = 0 := by
  rw [Nat.and_two_pow, Nat.testBit_lt_two_pow hx]
  simp

theorem add_and_two_pow (k x : ℕ) (hx : x < 2 ^ k) : (2 ^ k + x) &&& 2 ^ k = 2 ^ k := by
  rw [Nat.and_two_pow, testBit_two_pow_add k x k hx, if_pos rfl]
  simp

theorem xor_two_pow_of_lt (k x : ℕ) (hx : x < 2 ^ k) : x ^^^ 2 ^ k = 2 ^ k + x := by
  apply Nat.eq_of_testBit_eq
  intro i
  rw [Nat.testBit_xor, testBit_two_pow_add k x i hx, Nat.testBit_two_pow]
  by_cases hik : i = k
  · subst hik
    rw [Nat.testBit_lt_two_pow hx]
    simp
  · simp [hik, Ne.symm hik]

theorem add_xor_two_pow (k x : ℕ) (hx : x < 2 ^ k) : (2 ^ k + x) ^^^ 2 ^ k = x := by
  apply Nat.eq_of_testBit_eq
  intro i
  rw [Nat.testBit_xor, testBit_two_pow_add k x i hx, Nat.testBit_two_pow]
  by_cases hik : i = k
  · subst hik
    rw [Nat.testBit_lt_two_pow hx]
    simp
  · simp [hik, Ne.symm hik]

/-- the reversed-counter increment loop:
`while (j & bit) { j ^= bit; bit >>= 1; } j ^= bit` -/
def bitRevStep (j bit : ℕ) : ℕ :=
  if h : j &&& bit ≠ 0 then bitRevStep (j ^^^ bit) (bit / 2) else j ^^^ bit
termination_by bit
decreasing_by
  have hb : bit ≠ 0 := by
    rintro rfl
    simp at h
  omega

theorem bitRevStep_rev (k : ℕ) : ∀ m, m < 2 ^ k →
    bitRevStep (bitRev k m) (2 ^ k / 2) = bitRev k (m + 1) := by
  induction k with
  | zero =>
    intro m hm
    interval_cases m
    rw [bitRevStep]
    simp [bitRev]
  | succ k ih =>
    intro m hm
    have hhalf : 2 ^ (k + 1) / 2 = 2 ^ k := by
      rw [pow_succ]
      omega
    have hr : bitRev k (m / 2) < 2 ^ k := bitRev_lt k (m / 2)
    rw [hhalf]
    rcases (by omega : m % 2 = 0 ∨ m % 2 = 1) with hp | hp
    · have hj : bitRev (k + 1) m = bitRev k (m / 2) := by
        simp only [bitRev]
        rw [hp]
        ring_nf
      have hj2 : bitRev (k + 1) (m + 1) = 2 ^ k + bitRev k (m / 2) := by
        simp only [bitRev]
        have h1 : (m + 1) % 2 = 1 := by omega
        have h2 : (m + 1) / 2 = m / 2 := by omega
        rw [h1, h2]
        ring_nf
      rw [hj, hj2]
      rw [bitRevStep]
      rw [dif_neg (by rw [and_two_pow_of_lt k _ hr]; simp)]
      exact xor_two_pow_of_lt k _ hr
    · have hj : bitRev (k + 1) m = 2 ^ k + bitRev k (m / 2) := by
        simp only [bitRev]
        rw [hp]
        ring_nf
      have hj2 : bitRev (k + 1) (m + 1) = bitRev k (m / 2 + 1) := by
        simp only [bitRev]
        have h1 : (m + 1) % 2 = 0 := by omega
        have h2 : (m + 1) / 2 = m / 2 + 1 := by omega
        rw [h1, h2]
        ring_nf
      rw [hj, hj2]
      rw [bitRevStep]
      rw [dif_pos (by rw [add_and_two_pow k _ hr]; positivity)]
      rw [add_xor_two_pow k _ hr]
      have hm2 : m / 2 < 2 ^ k := by
        have : 2 ^ (k + 1) = 2 * 2 ^ k := by rw [pow_succ]; ring
        omega
      exact ih (m / 2) hm2

/-- the in-place swap of two buffer positions -/
def swapF (f : ℕ → ℂ) (a b : ℕ) : ℕ → ℂ :=
  fun p => if p = a then f b else if p = b then f a else f p

/-- one iteration of the bit-reversal permutation loop -/
def brStep (N : ℕ) (st : (ℕ → ℂ) × ℕ) (i : ℕ) : (ℕ → ℂ) × ℕ :=
  let j := bitRevStep st.2 (N / 2)
  (if i < j then swapF st.1 i j else st.1, j)

/-- the bit-reversal permutation pass of `fftInPlace` -/
def bitReversePass (N : ℕ) (f : ℕ → ℂ) : ℕ → ℂ :=
  ((List.range' 1 (N - 1)).foldl (brStep N) (f, 0)).1

theorem brFold_invariant (k : ℕ) (f : ℕ → ℂ) : ∀ m, m < 2 ^ k →
    ((List.range' 1 m).foldl (brStep (2 ^ k)) (f, 0)).2 = bitRev k m ∧
    (∀ p, p < 2 ^ k →
      ((List.range' 1 m).foldl (brStep (2 ^ k)) (f, 0)).1 p =
        if p ≤ m ∨ bitRev k p ≤ m then f (bitRev k p) else f p) ∧
    (∀ p, 2 ^ k ≤ p →
      ((List.range' 1 m).foldl (brStep (2 ^ k)) (f, 0)).1 p = f p) := by
  intro m
  induction m with
  | zero =>
    intro hm
    refine ⟨by simp [bitRev_zero], ?_, ?_⟩
    · intro p hp
      simp only [List.range'_zero, List.foldl_nil]
      by_cases hc : p ≤ 0 ∨ bitRev k p ≤ 0
      · rw [if_pos hc]
        have hp0 : p = 0 := by
          rcases hc with hc | hc
          · omega
          · have h0 : bitRev k p = 0 := by omega
            have hinv := bitRev_bitRev k p hp
            rw [h0, bitRev_zero] at hinv
            omega
        rw [hp0, bitRev_zero]
      · rw [if_neg hc]
    · intro p hp
      simp
  | succ m ih =>
    intro hm
    have hmlt : m < 2 ^ k := by omega
    obtain ⟨ih1, ih2, ih3⟩ := ih hmlt
    have hconcat : List.range' 1 (m + 1) = List.range' 1 m ++ [m + 1] := by
      rw [List.range'_1_concat, Nat.add_comm 1 m]
    rw [hconcat, List.foldl_append, List.foldl_cons, List.foldl_nil]
    set st := (List.range' 1 m).foldl (brStep (2 ^ k)) (f, 0) with hst
    have hj : bitRevStep st.2 (2 ^ k / 2) = bitRev k (m + 1) := by
      rw [ih1]
      exact bitRevStep_rev k m hmlt
    set r := bitRev k (m + 1) with hrdef
    have hrevm : bitRev k r = m + 1 := bitRev_bitRev k (m + 1) hm
    have hrlt : r < 2 ^ k := bitRev_lt k (m + 1)
    refine ⟨by simp only [brStep]; rw [hj], ?_, ?_⟩
    · intro p hp
      simp only [brStep]
      rw [hj]
      have hrevp_ne : p ≠ r → bitRev k p ≠ m + 1 := by
        intro hpr hbad
        have hinv := bitRev_bitRev k p hp
        rw [hbad, ← hrdef] at hinv
        exact hpr hinv.symm
      by_cases hswap : m + 1 < r
      · rw [if_pos hswap]
        rcases eq_or_ne p (m + 1) with hpe | hpe
        · rw [hpe]
          simp only [swapF]
          rw [if_pos trivial, ← hrdef]
          have hgr : st.1 r = f r := by
            rw [ih2 r hrlt, if_neg (by rw [hrevm]; omega)]
          rw [hgr, if_pos (Or.inl (le_refl _))]
        · rcases eq_or_ne p r with hpr | hpr
          · rw [hpr]
            simp only [swapF]
            rw [if_neg (show ¬(r = m + 1) from by omega), if_pos trivial]
            have hgi : st.1 (m + 1) = f (m + 1) := by
              rw [ih2 (m + 1) (by omega), if_neg (by omega)]
            rw [hgi, if_pos (Or.inr (le_of_eq hrevm)), hrevm]
          · simp only [swapF]
            rw [if_neg hpe, if_neg hpr]
            rw [ih2 p hp]
            have hner := hrevp_ne hpr
            by_cases hc : p ≤ m ∨ bitRev k p ≤ m
            · rw [if_pos hc, if_pos (by omega)]
            · rw [if_neg hc, if_neg (by push_neg at hc ⊢; omega)]
      · rw [if_neg hswap]
        rw [ih2 p hp]
        rcases eq_or_ne p (m + 1) with hpe | hpe
        · rw [hpe, ← hrdef]
          rcases (by omega : r ≤ m ∨ r = m + 1) with hrm | hrm
          · rw [if_pos (Or.inr hrm), if_pos (Or.inl (le_refl _))]
          · rw [if_neg (by omega), if_pos (Or.inl (le_refl _)), hrm]
        · rcases eq_or_ne p r with hpr | hpr
          · rw [hpr]
            have hrm : r ≤ m := by omega
            rw [if_pos (Or.inl hrm), if_pos (Or.inl (by omega))]
          · have hner := hrevp_ne hpr
            by_cases hc : p ≤ m ∨ bitRev k p ≤ m
            · rw [if_pos hc, if_pos (by omega)]
            · rw [if_neg hc, if_neg (by push_neg at hc ⊢; omega)]
    · intro p hp
      simp only [brStep]
      by_cases hswap : m + 1 < bitRevStep st.2 (2 ^ k / 2)
      · rw [if_pos hswap]
        simp only [swapF]
        rw [hj]
        rw [if_neg (by omega), if_neg (by omega)]
        exact ih3 p hp
      · rw [if_neg hswap]
        exact ih3 p hp

/-- After the whole loop the buffer is the bit-reversal permutation of the
input (positions beyond the buffer are untouched). -/
theorem bitReversePass_spec (k : ℕ) (f : ℕ → ℂ) :
    (∀ p, p < 2 ^ k → bitReversePass (2 ^ k) f p = f (bitRev k p)) ∧
    (∀ p, 2 ^ k ≤ p → bitReversePass (2 ^ k) f p = f p) := by
  have h1 : (1 : ℕ) ≤ 2 ^ k := Nat.one_le_two_pow
  obtain ⟨-, h2, h3⟩ := brFold_invariant k f (2 ^ k - 1) (by omega)
  constructor
  · intro p hp
    rw [bitReversePass, h2 p hp, if_pos (Or.inl (by omega))]
  · intro p hp
    rw [bitReversePass]
    exact h3 p hp


/-- one butterfly of the inner Cooley-Tukey loop:
`t = cur * f(b)` (complex product), `f(b) := f(a) - t`, `f(a) := f(a) + t`,
`cur := cur * w`, with `a = i + j`, `b = i + j + len/2`. -/
def bfInnerStep (w : ℂ) (i halfLen : ℕ) (st : (ℕ → ℂ) × ℂ) (j : ℕ) : (ℕ → ℂ) × ℂ :=
  let a := i + j
  let b := i + j + halfLen
  let t := st.2 * st.1 b
  (fun p => if p = b then st.1 a - t else if p = a then st.1 a + t else st.1 p,
   st.2 * w)

/-- the inner loop `for (j = 0; j < len/2; j++)` of one block, starting
from `cur = 1`. -/
def butterflyInner (w : ℂ) (i halfLen : ℕ) (f : ℕ → ℂ) : (ℕ → ℂ) × ℂ :=
  (List.range halfLen).foldl (bfInnerStep w i halfLen) (f, 1)

theorem bfInner_invariant (w : ℂ) (i halfLen : ℕ) (f : ℕ → ℂ) (hpos : 0 < halfLen) :
    ∀ m, m ≤ halfLen →
      ((List.range m).foldl (bfInnerStep w i halfLen) (f, 1)).2 = w ^ m ∧
      ∀ p, ((List.range m).foldl (bfInnerStep w i halfLen) (f, 1)).1 p =
        if i ≤ p ∧ p < i + m then f p + w ^ (p - i) * f (p + halfLen)
        else if i + halfLen ≤ p ∧ p < i + halfLen + m then
          f (p - halfLen) - w ^ (p - halfLen - i) * f p
        else f p := by
  intro m
  induction m with
  | zero =>
    intro _
    refine ⟨by simp, ?_⟩
    intro p
    simp only [List.range_zero, List.foldl_nil]
    rw [if_neg (by omega), if_neg (by omega)]
  | succ m ih =>
    intro hm
    obtain ⟨ih1, ih2⟩ := ih (by omega)
    rw [List.range_succ, List.foldl_append, List.foldl_cons, List.foldl_nil]
    set st := (List.range m).foldl (bfInnerStep w i halfLen) (f, 1) with hst
    have hga : st.1 (i + m) = f (i + m) := by
      rw [ih2 (i + m), if_neg (by omega), if_neg (by omega)]
    have hgb : st.1 (i + m + halfLen) = f (i + m + halfLen) := by
      rw [ih2 (i + m + halfLen), if_neg (by omega), if_neg (by omega)]
    refine ⟨?_, ?_⟩
    · simp only [bfInnerStep]
      rw [ih1, pow_succ]
    · intro p
      simp only [bfInnerStep]
      rw [ih1, hga, hgb]
      rcases eq_or_ne p (i + m + halfLen) with hpb | hpb
      · rw [hpb, if_pos rfl]
        rw [if_neg (by omega), if_pos (by omega)]
        have e1 : i + m + halfLen - halfLen = i + m := by omega
        have e2 : i + m - i = m := by omega
        rw [e1, e2]
      · rcases eq_or_ne p (i + m) with hpa | hpa
        · rw [hpa, if_neg (by omega), if_pos rfl]
          rw [if_pos (by omega)]
          have e1 : i + m - i = m := by omega
          rw [e1]
        · rw [if_neg hpb, if_neg hpa, ih2 p]
          by_cases hc1 : i ≤ p ∧ p < i + m
          · rw [if_pos hc1, if_pos (by omega)]
          · rw [if_neg hc1]
            by_cases hc2 : i + halfLen ≤ p ∧ p < i + halfLen + m
            · rw [if_pos hc2, if_neg (by omega), if_pos (by omega)]
            · rw [if_neg hc2, if_neg (by omega), if_neg (by omega)]

/-- the middle loop `for (i = 0; i < N; i += len)`: one butterfly stage,
processing `N / len` disjoint blocks. -/
def butterflyBlocks (w : ℂ) (N len : ℕ) (f : ℕ → ℂ) : ℕ → ℂ :=
  (List.range (N / len)).foldl (fun g b => (butterflyInner w (b * len) (len / 2) g).1) f

theorem butterflyFold_spec (w : ℂ) (len halfLen : ℕ) (hlen : len = 2 * halfLen)
    (hpos : 0 < halfLen) (f : ℕ → ℂ) :
    ∀ B : ℕ,
      (∀ q r, q < B → r < len →
        ((List.range B).foldl (fun g b => (butterflyInner w (b * len) halfLen g).1) f)
            (q * len + r) =
          if r < halfLen then f (q * len + r) + w ^ r * f (q * len + r + halfLen)
          else f (q * len + r - halfLen) - w ^ (r - halfLen) * f (q * len + r)) ∧
      (∀ p, B * len ≤ p →
        ((List.range B).foldl (fun g b => (butterflyInner w (b * len) halfLen g).1) f) p
          = f p) := by
  intro B
  induction B with
  | zero =>
    constructor
    · intro q r hq _
      omega
    · intro p _
      simp
  | succ B ih =>
    obtain ⟨ih1, ih2⟩ := ih
    rw [List.range_succ, List.foldl_append, List.foldl_cons, List.foldl_nil]
    set g := (List.range B).foldl
      (fun g b => (butterflyInner w (b * len) halfLen g).1) f with hg
    have hinner := (bfInner_invariant w (B * len) halfLen g hpos halfLen (le_refl _)).2
    have hBsucc : (B + 1) * len = B * len + len := Nat.succ_mul B len
    constructor
    · intro q r hq hr
      rcases Nat.lt_succ_iff_lt_or_eq.mp hq with hqB | hqB
      · have hq1 : (q + 1) * len = q * len + len := Nat.succ_mul q len
        have hmono : (q + 1) * len ≤ B * len := Nat.mul_le_mul_right len hqB
        have hplt : q * len + r < B * len := by omega
        rw [show (butterflyInner w (B * len) halfLen g).1 (q * len + r) =
            g (q * len + r) from by
          rw [butterflyInner, hinner (q * len + r), if_neg (by omega), if_neg (by omega)]]
        exact ih1 q r hqB hr
      · subst hqB
        rw [butterflyInner, hinner (q * len + r)]
        by_cases hrh : r < halfLen
        · rw [if_pos (by omega), if_pos hrh]
          have e1 : q * len + r - q * len = r := by omega
          rw [e1]
          have hga : g (q * len + r) = f (q * len + r) := ih2 _ (by omega)
          have hgb : g (q * len + r + halfLen) = f (q * len + r + halfLen) :=
            ih2 _ (by omega)
          rw [hga, hgb]
        · rw [if_neg (by omega), if_pos (by omega), if_neg hrh]
          have e1 : q * len + r - halfLen - q * len = r - halfLen := by omega
          rw [e1]
          have hga : g (q * len + r - halfLen) = f (q * len + r - halfLen) :=
            ih2 _ (by omega)
          have hgb : g (q * len + r) = f (q * len + r) := ih2 _ (by omega)
          rw [hga, hgb]
    · intro p hp
      rw [butterflyInner, hinner p, if_neg (by omega), if_neg (by omega)]
      exact ih2 p (by omega)

/-- The discrete Fourier transform of the first `n` entries of `x`:
`X[j] = Σ x[m]·exp(-2πi·j·m/n)`. -/
def dft (n : ℕ) (x : ℕ → ℂ) (j : ℕ) : ℂ :=
  ∑ m ∈ Finset.range n, x m * Complex.exp (-(2 * (Real.pi : ℂ) * Complex.I * j * m) / n)

theorem dft_congr (n : ℕ) (x y : ℕ → ℂ) (j : ℕ) (h : ∀ m, m < n → x m = y m) :
    dft n x j = dft n y j := by
  unfold dft
  exact Finset.sum_congr rfl fun m hm => by rw [h m (Finset.mem_range.mp hm)]

theorem dft_single (x : ℕ → ℂ) (j : ℕ) : dft 1 x j = x 0 := by
  unfold dft
  rw [Finset.sum_range_one]
  norm_num

theorem sum_range_even_odd (F : ℕ → ℂ) : ∀ n : ℕ,
    ∑ m ∈ Finset.range (2 * n), F m =
      ∑ m ∈ Finset.range n, F (2 * m) + ∑ m ∈ Finset.range n, F (2 * m + 1) := by
  intro n
  induction n with
  | zero => simp
  | succ n ih =>
    have h2 : 2 * (n + 1) = 2 * n + 1 + 1 := by ring
    rw [h2, Finset.sum_range_succ, Finset.sum_range_succ,
      Finset.sum_range_succ (fun m => F (2 * m)), Finset.sum_range_succ (fun m => F (2 * m + 1)),
      ih]
    ring

theorem dft_even_odd (n : ℕ) (hn : 0 < n) (x : ℕ → ℂ) (j : ℕ) :
    dft (2 * n) x j =
      dft n (fun m => x (2 * m)) j +
        Complex.exp (-(2 * (Real.pi : ℂ) * Complex.I * j) / (2 * n)) *
          dft n (fun m => x (2 * m + 1)) j := by
  have hnC : ((n : ℂ)) ≠ 0 := Nat.cast_ne_zero.mpr (by omega)
  unfold dft
  rw [sum_range_even_odd]
  congr 1
  · refine Finset.sum_congr rfl fun m _ => ?_
    congr 1
    congr 1
    push_cast
    field_simp
    ring
  · rw [Finset.mul_sum]
    refine Finset.sum_congr rfl fun m _ => ?_
    have hsplit : Complex.exp (-(2 * (Real.pi : ℂ) * Complex.I * j * (2 * m + 1)) / (2 * n)) =
        Complex.exp (-(2 * (Real.pi : ℂ) * Complex.I * j) / (2 * n)) *
          Complex.exp (-(2 * (Real.pi : ℂ) * Complex.I * j * m) / n) := by
      rw [← Complex.exp_add]
      congr 1
      field_simp
      ring
    push_cast
    rw [hsplit]
    ring

theorem dft_period (n : ℕ) (hn : 0 < n) (x : ℕ → ℂ) (r : ℕ) :
    dft n x (n + r) = dft n x r := by
  have hnC : ((n : ℂ)) ≠ 0 := Nat.cast_ne_zero.mpr (by omega)
  unfold dft
  refine Finset.sum_congr rfl fun m _ => ?_
  congr 1
  have hsplit : -(2 * (Real.pi : ℂ) * Complex.I * (n + r) * m) / n =
      -(2 * (Real.pi : ℂ) * Complex.I * r * m) / n +
        (Int.cast (-(m : ℤ)) : ℂ) * (2 * Real.pi * Complex.I) := by
    push_cast
    field_simp
    ring
  rw [show ((n + r : ℕ) : ℂ) = (n : ℂ) + r by push_cast; ring]
  rw [hsplit, Complex.exp_add, Complex.exp_int_mul_two_pi_mul_I]
  ring

theorem bitRev_double (j q : ℕ) : bitRev (j + 1) (2 * q) = bitRev j q := by
  show 2 * q % 2 * 2 ^ j + bitRev j (2 * q / 2) = bitRev j q
  rw [Nat.mul_mod_right, Nat.mul_div_cancel_left q (by norm_num : (0:ℕ) < 2)]
  ring_nf

theorem bitRev_double_add_one (j q : ℕ) :
    bitRev (j + 1) (2 * q + 1) = 2 ^ j + bitRev j q := by
  show (2 * q + 1) % 2 * 2 ^ j + bitRev j ((2 * q + 1) / 2) = 2 ^ j + bitRev j q
  have h1 : (2 * q + 1) % 2 = 1 := by omega
  have h2 : (2 * q + 1) / 2 = q := by omega
  rw [h1, h2]
  ring

/-- The per-stage twiddle base `w = cos θ + sin θ·i` equals `exp(iθ)`,
and its powers give the DFT twiddles: for `θ = -2π/len`,
`w^r = exp(-2πi·r/len)`. -/
theorem w_pow_eq_exp (len r : ℕ) (hlen : 0 < len) :
    ((Real.cos (-(2 * Real.pi) / len) : ℂ) +
      (Real.sin (-(2 * Real.pi) / len) : ℂ) * Complex.I) ^ r =
    Complex.exp (-(2 * (Real.pi : ℂ) * Complex.I * r) / len) := by
  have hw : ((Real.cos (-(2 * Real.pi) / len) : ℂ) +
      (Real.sin (-(2 * Real.pi) / len) : ℂ) * Complex.I) =
      Complex.exp ((((-(2 * Real.pi) / len : ℝ)) : ℂ) * Complex.I) := by
    rw [Complex.exp_mul_I, Complex.ofReal_cos, Complex.ofReal_sin]
  rw [hw, ← Complex.exp_nat_mul]
  congr 1
  have hC : ((len : ℂ)) ≠ 0 := Nat.cast_ne_zero.mpr (by omega)
  push_cast
  field_simp
  left
  ring

theorem exp_half_period (n r : ℕ) (hn : 0 < n) :
    Complex.exp (-(2 * (Real.pi : ℂ) * Complex.I * ((n : ℕ) + r)) / (2 * n)) =
      -Complex.exp (-(2 * (Real.pi : ℂ) * Complex.I * r) / (2 * n)) := by
  have hC : ((n : ℂ)) ≠ 0 := Nat.cast_ne_zero.mpr (by omega)
  have hsplit : -(2 * (Real.pi : ℂ) * Complex.I * ((n : ℂ) + r)) / (2 * n) =
      -((Real.pi : ℂ) * Complex.I) + -(2 * (Real.pi : ℂ) * Complex.I * r) / (2 * n) := by
    field_simp
    ring
  rw [hsplit, Complex.exp_add, Complex.exp_neg, Complex.exp_pi_mul_I]
  norm_num

theorem butterflyBlocks_spec (w : ℂ) (N len halfLen numBlocks : ℕ)
    (hlen : len = 2 * halfLen) (hpos : 0 < halfLen) (hdiv : N / len = numBlocks)
    (f : ℕ → ℂ) :
    (∀ q r, q < numBlocks → r < len →
      butterflyBlocks w N len f (q * len + r) =
        if r < halfLen then f (q * len + r) + w ^ r * f (q * len + r + halfLen)
        else f (q * len + r - halfLen) - w ^ (r - halfLen) * f (q * len + r)) ∧
    (∀ p, numBlocks * len ≤ p → butterflyBlocks w N len f p = f p) := by
  have hhalf : len / 2 = halfLen := by omega
  unfold butterflyBlocks
  rw [hdiv]
  simp only [hhalf]
  exact butterflyFold_spec w len halfLen hlen hpos f numBlocks

theorem stage_step (k s : ℕ) (hs : s < k) (f g : ℕ → ℂ)
    (hInv : ∀ q r, q < 2 ^ (k - s) → r < 2 ^ s →
      g (q * 2 ^ s + r) =
        dft (2 ^ s) (fun m => f (bitRev (k - s) q + 2 ^ (k - s) * m)) r) :
    ∀ q r, q < 2 ^ (k - s - 1) → r < 2 ^ (s + 1) →
      butterflyBlocks
        ((Real.cos (-(2 * Real.pi) / ((2 ^ (s + 1) : ℕ) : ℝ)) : ℂ) +
          (Real.sin (-(2 * Real.pi) / ((2 ^ (s + 1) : ℕ) : ℝ)) : ℂ) * Complex.I)
        (2 ^ k) (2 ^ (s + 1)) g (q * 2 ^ (s + 1) + r) =
      dft (2 ^ (s + 1)) (fun m => f (bitRev (k - s - 1) q + 2 ^ (k - s - 1) * m)) r := by
  intro q r hq hr
  have h2s1 : (2 : ℕ) ^ (s + 1) = 2 * 2 ^ s := by rw [pow_succ]; ring
  have hks : (2 : ℕ) ^ (k - s) = 2 * 2 ^ (k - s - 1) := by
    obtain ⟨d, hd⟩ : ∃ d, k - s = d + 1 := ⟨k - s - 1, by omega⟩
    rw [hd, Nat.add_sub_cancel, pow_succ]
    ring
  have hkssub : k - s - 1 + 1 = k - s := by omega
  have hdiv : 2 ^ k / 2 ^ (s + 1) = 2 ^ (k - s - 1) := by
    have he : k - (s + 1) = k - s - 1 := rfl
    rw [Nat.pow_div (by omega) (by norm_num), he]
  have hspos : (0 : ℕ) < 2 ^ s := Nat.pos_pow_of_pos s (by norm_num)
  set w : ℂ := (Real.cos (-(2 * Real.pi) / ((2 ^ (s + 1) : ℕ) : ℝ)) : ℂ) +
      (Real.sin (-(2 * Real.pi) / ((2 ^ (s + 1) : ℕ) : ℝ)) : ℂ) * Complex.I with hw
  obtain ⟨hb, -⟩ := butterflyBlocks_spec w (2 ^ k) (2 ^ (s + 1)) (2 ^ s) (2 ^ (k - s - 1))
    h2s1 hspos hdiv g
  rw [hb q r hq hr]
  -- cast form of the twiddle denominator
  have hcast : ((2 ^ (s + 1) : ℕ) : ℂ) = 2 * ((2 ^ s : ℕ) : ℂ) := by
    push_cast
    ring
  have hwpow : ∀ j : ℕ, w ^ j =
      Complex.exp (-(2 * (Real.pi : ℂ) * Complex.I * j) / (2 * ((2 ^ s : ℕ) : ℂ))) := by
    intro j
    rw [hw, w_pow_eq_exp (2 ^ (s + 1)) j (Nat.pos_pow_of_pos (s + 1) (by norm_num)), hcast]
  -- the claimed subsequence at level s+1 and its even/odd parts
  have heven : ∀ m, m < 2 ^ s →
      (fun m => f (bitRev (k - s - 1) q + 2 ^ (k - s - 1) * m)) (2 * m) =
        f (bitRev (k - s) (2 * q) + 2 ^ (k - s) * m) := by
    intro m _
    have hbr : bitRev (k - s) (2 * q) = bitRev (k - s - 1) q := by
      obtain ⟨d, hd⟩ : ∃ d, k - s = d + 1 := ⟨k - s - 1, by omega⟩
      rw [hd, Nat.add_sub_cancel, bitRev_double]
    show f (bitRev (k - s - 1) q + 2 ^ (k - s - 1) * (2 * m)) = _
    rw [hbr, hks]
    congr 1
    ring
  have hodd : ∀ m, m < 2 ^ s →
      (fun m => f (bitRev (k - s - 1) q + 2 ^ (k - s - 1) * m)) (2 * m + 1) =
        f (bitRev (k - s) (2 * q + 1) + 2 ^ (k - s) * m) := by
    intro m _
    have hbr : bitRev (k - s) (2 * q + 1) = 2 ^ (k - s - 1) + bitRev (k - s - 1) q := by
      obtain ⟨d, hd⟩ : ∃ d, k - s = d + 1 := ⟨k - s - 1, by omega⟩
      rw [hd, Nat.add_sub_cancel, bitRev_double_add_one]
    show f (bitRev (k - s - 1) q + 2 ^ (k - s - 1) * (2 * m + 1)) = _
    rw [hbr, hks]
    congr 1
    ring
  have hq2 : 2 * q < 2 ^ (k - s) := by omega
  have hq21 : 2 * q + 1 < 2 ^ (k - s) := by omega
  have hprod : q * 2 ^ (s + 1) = 2 * q * 2 ^ s := by rw [h2s1]; ring
  have hprod1 : (2 * q + 1) * 2 ^ s = 2 * q * 2 ^ s + 2 ^ s := by ring
  by_cases hrs : r < 2 ^ s
  · rw [if_pos hrs]
    have e1 : q * 2 ^ (s + 1) + r = 2 * q * 2 ^ s + r := by omega
    have e2 : q * 2 ^ (s + 1) + r + 2 ^ s = (2 * q + 1) * 2 ^ s + r := by omega
    rw [e2, e1, hInv (2 * q) r hq2 hrs, hInv (2 * q + 1) r hq21 hrs]
    rw [h2s1, dft_even_odd (2 ^ s) hspos _ r]
    rw [dft_congr (2 ^ s) _ _ r heven, dft_congr (2 ^ s) _ _ r hodd]
    rw [hwpow r]
  · rw [if_neg hrs]
    set r2 := r - 2 ^ s with hr2def
    have hr2 : r = 2 ^ s + r2 := by omega
    have hr2lt : r2 < 2 ^ s := by omega
    have e1 : q * 2 ^ (s + 1) + r - 2 ^ s = 2 * q * 2 ^ s + r2 := by omega
    have e2 : q * 2 ^ (s + 1) + r = (2 * q + 1) * 2 ^ s + r2 := by omega
    rw [e1, e2, hInv (2 * q) r2 hq2 hr2lt, hInv (2 * q + 1) r2 hq21 hr2lt]
    rw [h2s1, hr2, dft_even_odd (2 ^ s) hspos _ (2 ^ s + r2)]
    rw [dft_congr (2 ^ s) _ _ (2 ^ s + r2) heven, dft_congr (2 ^ s) _ _ (2 ^ s + r2) hodd]
    rw [dft_period (2 ^ s) hspos _ r2, dft_period (2 ^ s) hspos _ r2]
    have hexp : Complex.exp (-(2 * (Real.pi : ℂ) * Complex.I * ((2 ^ s + r2 : ℕ) : ℂ)) /
        (2 * ((2 ^ s : ℕ) : ℂ))) =
        -Complex.exp (-(2 * (Real.pi : ℂ) * Complex.I * r2) / (2 * ((2 ^ s : ℕ) : ℂ))) := by
      have := exp_half_period (2 ^ s) r2 hspos
      push_cast at this ⊢
      exact this
    rw [hwpow r2, hexp]
    ring

/-- the outer loop `for (len = 2; len <= N; len <<= 1)` of `fftInPlace`,
with the per-stage twiddle base `wRe + wIm·i`,
`angle = (inverse ? 2π : -2π)/len`. -/
def stagesLoop (N : ℕ) (inverse : Bool) (g : ℕ → ℂ) (len : ℕ) : ℕ → ℂ :=
  if h : 2 ≤ len ∧ len ≤ N then
    stagesLoop N inverse
      (butterflyBlocks
        ((Real.cos ((if inverse then 2 * Real.pi else -(2 * Real.pi)) / (len : ℝ)) : ℂ) +
          (Real.sin ((if inverse then 2 * Real.pi else -(2 * Real.pi)) / (len : ℝ)) : ℂ) *
            Complex.I)
        N len g) (2 * len)
  else g
termination_by N + 1 - len
decreasing_by
  omega

/-- Embeds `fftInPlace(re, im, inverse)` on a buffer of length `N`
(`re`/`im` combined into one `ℕ → ℂ` buffer): bit-reversal permutation,
then the butterfly stages, then the `1/N` scaling for the inverse
transform. -/
def fftInPlace (N : ℕ) (f : ℕ → ℂ) (inverse : Bool) : ℕ → ℂ :=
  let g := stagesLoop N inverse (bitReversePass N f) 2
  if inverse then fun p => g p / (N : ℂ) else g

theorem stagesLoop_correct (k : ℕ) (f : ℕ → ℂ) : ∀ s g, s ≤ k →
    (∀ q r, q < 2 ^ (k - s) → r < 2 ^ s →
      g (q * 2 ^ s + r) = dft (2 ^ s) (fun m => f (bitRev (k - s) q + 2 ^ (k - s) * m)) r) →
    ∀ p, p < 2 ^ k → stagesLoop (2 ^ k) false g (2 ^ (s + 1)) p = dft (2 ^ k) f p := by
  have main : ∀ d s g, k - s = d → s ≤ k →
      (∀ q r, q < 2 ^ (k - s) → r < 2 ^ s →
        g (q * 2 ^ s + r) = dft (2 ^ s) (fun m => f (bitRev (k - s) q + 2 ^ (k - s) * m)) r) →
      ∀ p, p < 2 ^ k → stagesLoop (2 ^ k) false g (2 ^ (s + 1)) p = dft (2 ^ k) f p := by
    intro d
    induction d using Nat.strong_induction_on with
    | _ d ih =>
      intro s g hd hs hInv p hp
      have h2s1 : (2 : ℕ) ^ (s + 1) = 2 * 2 ^ s := by rw [pow_succ]; ring
      by_cases hsk : s = k
      · subst hsk
        rw [stagesLoop, dif_neg (by
          have hks : (2 : ℕ) ^ (s + 1) = 2 * 2 ^ s := h2s1
          have hpos : (0 : ℕ) < 2 ^ s := Nat.pos_pow_of_pos s (by norm_num)
          omega)]
        have h0 := hInv 0 p (by rw [Nat.sub_self]; norm_num) hp
        rw [show (0 : ℕ) * 2 ^ s + p = p from by omega] at h0
        rw [h0, Nat.sub_self]
        refine dft_congr _ _ _ _ ?_
        intro m _
        show f (bitRev 0 0 + 2 ^ 0 * m) = f m
        rw [show bitRev 0 0 = 0 from rfl, pow_zero]
        congr 1
        omega
      · have hslt : s < k := by omega
        have hguard : 2 ≤ 2 ^ (s + 1) ∧ 2 ^ (s + 1) ≤ 2 ^ k := by
          constructor
          · have : (2 : ℕ) ^ 1 ≤ 2 ^ (s + 1) := Nat.pow_le_pow_right (by norm_num) (by omega)
            simpa using this
          · exact Nat.pow_le_pow_right (by norm_num) (by omega)
        rw [stagesLoop, dif_pos hguard]
        have hfalse : (if (false : Bool) then 2 * Real.pi else -(2 * Real.pi)) =
            -(2 * Real.pi) := rfl
        rw [hfalse]
        have hlen2 : 2 * 2 ^ (s + 1) = 2 ^ (s + 1 + 1) := by rw [pow_succ]; ring
        rw [hlen2]
        have hInv2 := stage_step k s hslt f g hInv
        exact ih (k - (s + 1)) (by omega) (s + 1)
          (butterflyBlocks
            ((Real.cos (-(2 * Real.pi) / ((2 ^ (s + 1) : ℕ) : ℝ)) : ℂ) +
              (Real.sin (-(2 * Real.pi) / ((2 ^ (s + 1) : ℕ) : ℝ)) : ℂ) * Complex.I)
            (2 ^ k) (2 ^ (s + 1)) g)
          rfl (by omega)
          (by
            intro q r hq hr
            exact hInv2 q r (by
              have hpow : (2 : ℕ) ^ (k - s - 1) = 2 ^ (k - (s + 1)) := rfl
              omega) hr)
          p hp
  intro s g hs hInv
  exact main (k - s) s g rfl hs hInv

/-- `fftInPlace` with `inverse = false` computes the DFT on a
power-of-two buffer. -/
theorem fftInPlace_dft (k : ℕ) (f : ℕ → ℂ) : ∀ p, p < 2 ^ k →
    fftInPlace (2 ^ k) f false p = dft (2 ^ k) f p := by
  intro p hp
  have hpass := (bitReversePass_spec k f).1
  have hInv0 : ∀ q r, q < 2 ^ (k - 0) → r < 2 ^ 0 →
      bitReversePass (2 ^ k) f (q * 2 ^ 0 + r) =
        dft (2 ^ 0) (fun m => f (bitRev (k - 0) q + 2 ^ (k - 0) * m)) r := by
    intro q r hq hr
    have hr0 : r = 0 := by
      have : (2 : ℕ) ^ 0 = 1 := by norm_num
      omega
    subst hr0
    rw [pow_zero, mul_one, add_zero, Nat.sub_zero]
    rw [dft_single]
    rw [hpass q (by simpa using hq)]
    simp
  have hmain := stagesLoop_correct k f 0 (bitReversePass (2 ^ k) f) (by omega) hInv0 p hp
  rw [show (2 : ℕ) ^ (0 + 1) = 2 from by norm_num] at hmain
  rw [fftInPlace]
  exact hmain

/-- Embeds `fftReal(signal, sampleRate)`: zero-pad to `N = nextPow2 len`,
run the forward FFT, and return the one-sided spectrum: `N/2` bins with
magnitude `sqrt(re² + im²)·(2/N)` and frequency `i·sampleRate/N`. -/
def fftReal (signal : List ℝ) (sampleRate : ℝ) : List ℝ × List ℝ :=
  let N := nextPow2 signal.length
  let x : ℕ → ℂ := fun m => if m < signal.length then ⟨signal.getD m 0, 0⟩ else 0
  let h := fftInPlace N x false
  ((List.range (N / 2)).map (fun i : ℕ =>
      Real.sqrt ((h i).re * (h i).re + (h i).im * (h i).im) * (2 / (N : ℝ))),
   (List.range (N / 2)).map (fun i : ℕ => (i : ℝ) * sampleRate / (N : ℝ)))

/-- Embeds `fftComplex(I, Q, sampleRate)`: zero-pad the complex sequence
`I + jQ` to `N = nextPow2 I.length`, run the forward FFT, and return all
`N` bins FFT-shifted: magnitude `sqrt(re² + im²)·(1/N)` read from source
bin `(i + N/2) mod N`, frequency `(i − N/2)·sampleRate/N`.
Caveat: the shift index is written here with natural-number division, which
is faithful only when `N` is even, i.e. for inputs of length ≥ 2.  For
inputs of length ≤ 1 we have `N = 1` and the JS source computes the
fractional index `(i + 0.5) % 1 = 0.5`, reads `undefined` from the buffers
and produces `NaN` magnitudes, whereas this embedding reads bin
`(i + 0) % 1 = 0`; theorems about `fftComplex` therefore carry a
`2 ≤ I.length` hypothesis. -/
def fftComplex (inI inQ : List ℝ) (sampleRate : ℝ) : List ℝ × List ℝ :=
  let N := nextPow2 inI.length
  let x : ℕ → ℂ := fun m => if m < inI.length then ⟨inI.getD m 0, inQ.getD m 0⟩ else 0
  let h := fftInPlace N x false
  ((List.range N).map (fun i : ℕ =>
      Real.sqrt ((h ((i + N / 2) % N)).re * (h ((i + N / 2) % N)).re +
        (h ((i + N / 2) % N)).im * (h ((i + N / 2) % N)).im) * (1 / (N : ℝ))),
   (List.range N).map (fun i : ℕ => ((i : ℝ) - (N : ℝ) / 2) * sampleRate / (N : ℝ)))

/-- **C3** (amended: restricted to input length ≥ 2, where `N` is even and
the FFT-shift index `(i + N/2) mod N` is a genuine natural number; at
lengths ≤ 1 the JS reads the fractional index `0.5` and yields `NaN`, see
`fftComplex_counterexample`): for every pair of equal-length sequences
`I`, `Q` of length ≥ 2 and every `sampleRate`, `fftComplex` returns
exactly `N` index-aligned bins, where `N = nextPow2 I.length` is the
least power of two `≥` the input length and is even;
`frequencies[i] = (i − N/2)·sampleRate/N`, and
`magnitudes[i] = (1/N)·|X[(i + N/2) mod N]|` where `X` is the discrete
Fourier transform of the zero-padded complex sequence `I + jQ`. -/
theorem fftComplex_spec (inI inQ : List ℝ) (sampleRate : ℝ)
    (hlen : inI.length = inQ.length) (hlen2 : 2 ≤ inI.length) :
    (fftComplex inI inQ sampleRate).1.length = nextPow2 inI.length ∧
    (fftComplex inI inQ sampleRate).2.length = nextPow2 inI.length ∧
    (∃ kk, nextPow2 inI.length = 2 ^ kk) ∧
    inI.length ≤ nextPow2 inI.length ∧
    (∀ m, inI.length ≤ 2 ^ m → nextPow2 inI.length ≤ 2 ^ m) ∧
    2 ∣ nextPow2 inI.length ∧
    (∀ i, i < nextPow2 inI.length →
      (fftComplex inI inQ sampleRate).2.getD i 0 =
        ((i : ℝ) - (nextPow2 inI.length : ℝ) / 2) * sampleRate / (nextPow2 inI.length : ℝ)) ∧
    (∀ i, i < nextPow2 inI.length →
      (fftComplex inI inQ sampleRate).1.getD i 0 =
        (1 / (nextPow2 inI.length : ℝ)) *
          Complex.abs (dft (nextPow2 inI.length)
            (fun m => if m < inI.length then ⟨inI.getD m 0, inQ.getD m 0⟩ else 0)
            ((i + nextPow2 inI.length / 2) % nextPow2 inI.length))) := by
  obtain ⟨kk, hkk, hge, hleast⟩ := nextPow2_spec inI.length
  have hNpos : 0 < nextPow2 inI.length := by
    rw [hkk]
    exact Nat.pos_pow_of_pos kk (by norm_num)
  have hlen1 : (fftComplex inI inQ sampleRate).1.length = nextPow2 inI.length := by
    rw [fftComplex, List.length_map, List.length_range]
  have hlen2 : (fftComplex inI inQ sampleRate).2.length = nextPow2 inI.length := by
    rw [fftComplex, List.length_map, List.length_range]
  have hge2 : inI.length ≤ nextPow2 inI.length := by
    rw [hkk]
    exact hge
  have hleast2 : ∀ m, inI.length ≤ 2 ^ m → nextPow2 inI.length ≤ 2 ^ m := by
    intro m hm
    rw [hkk]
    exact Nat.pow_le_pow_right (by norm_num) (hleast m hm)
  have heven : 2 ∣ nextPow2 inI.length := by
    rcases Nat.eq_zero_or_pos kk with hk0 | hkpos
    · exfalso
      rw [hk0, pow_zero] at hkk
      omega
    · obtain ⟨d, hd⟩ : ∃ d, kk = d + 1 := ⟨kk - 1, by omega⟩
      exact ⟨2 ^ d, by rw [hkk, hd, pow_succ, mul_comm]⟩
  refine ⟨hlen1, hlen2, ⟨kk, hkk⟩, hge2, hleast2, heven, ?_, ?_⟩
  · intro i hi
    have hi2 : i < (fftComplex inI inQ sampleRate).2.length := by rw [hlen2]; exact hi
    rw [List.getD_eq_getElem _ _ hi2]
    simp only [fftComplex, List.getElem_map, List.getElem_range]
  · intro i hi
    have hi1 : i < (fftComplex inI inQ sampleRate).1.length := by rw [hlen1]; exact hi
    rw [List.getD_eq_getElem _ _ hi1]
    simp only [fftComplex, List.getElem_map, List.getElem_range]
    set x : ℕ → ℂ := fun m => if m < inI.length then ⟨inI.getD m 0, inQ.getD m 0⟩ else 0
      with hx
    set sh := (i + nextPow2 inI.length / 2) % nextPow2 inI.length with hsh
    have hshlt : sh < nextPow2 inI.length := Nat.mod_lt _ hNpos
    have hfft : fftInPlace (nextPow2 inI.length) x false sh =
        dft (nextPow2 inI.length) x sh := by
      rw [hkk] at hshlt ⊢
      exact fftInPlace_dft kk x sh hshlt
    rw [hfft]
    rw [show ∀ z : ℂ, Real.sqrt (z.re * z.re + z.im * z.im) = Complex.abs z from fun z => by
      rw [Complex.abs_apply, Complex.normSq_apply]]
    ring

/-- Witness for C3 at `I = [1, 2]`, `Q = [3, 4]`, `sampleRate = 2`, bin `0`
(input length `2`, padded size `N = 2`, which is even). -/
theorem fftComplex_spec_witness :
    (fftComplex [1, 2] [3, 4] 2).1.length = nextPow2 ([1, 2] : List ℝ).length ∧
    2 ∣ nextPow2 ([1, 2] : List ℝ).length ∧
    (fftComplex [1, 2] [3, 4] 2).2.getD 0 0 =
      (((0 : ℕ) : ℝ) - (nextPow2 ([1, 2] : List ℝ).length : ℝ) / 2) * 2 /
        (nextPow2 ([1, 2] : List ℝ).length : ℝ) ∧
    (fftComplex [1, 2] [3, 4] 2).1.getD 0 0 =
      (1 / (nextPow2 ([1, 2] : List ℝ).length : ℝ)) *
        Complex.abs (dft (nextPow2 ([1, 2] : List ℝ).length)
          (fun m => if m < ([1, 2] : List ℝ).length then
            ⟨([1, 2] : List ℝ).getD m 0, ([3, 4] : List ℝ).getD m 0⟩ else 0)
          ((0 + nextPow2 ([1, 2] : List ℝ).length / 2) %
            nextPow2 ([1, 2] : List ℝ).length)) := by
  have htwo : nextPow2 ([1, 2] : List ℝ).length = 2 := by
    rw [show ([1, 2] : List ℝ).length = 2 from rfl, nextPow2, nextPow2Go,
      dif_pos (by omega), nextPow2Go, dif_neg (by omega)]
  have hpos : 0 < nextPow2 ([1, 2] : List ℝ).length := by
    rw [htwo]
    norm_num
  have h := fftComplex_spec [1, 2] [3, 4] 2 rfl (by decide)
  exact ⟨h.1, h.2.2.2.2.2.1, h.2.2.2.2.2.2.1 0 hpos, h.2.2.2.2.2.2.2 0 hpos⟩

/-- Counterexample to C3 as originally stated over all equal-length inputs:
at `I = [1]`, `Q = [0]` the padded size is `N = nextPow2 1 = 1`, which is
*odd*, so the JS shift index `N/2 = 0.5` is fractional: the source reads
`undefined` from the FFT buffers and returns `NaN` magnitudes, and the
claim's bin formula `(i + N/2) mod N` names no natural-number bin there
(consistent with C9's account of lengths `≤ 1`). -/
theorem fftComplex_counterexample :
    ([1] : List ℝ).length = ([0] : List ℝ).length ∧
    nextPow2 ([1] : List ℝ).length = 1 ∧
    ¬ 2 ∣ nextPow2 ([1] : List ℝ).length ∧
    (fftComplex [1] [0] 2).1.length = 1 := by
  have hone : nextPow2 ([1] : List ℝ).length = 1 := by
    rw [show ([1] : List ℝ).length = 1 from rfl, nextPow2, nextPow2Go, dif_neg (by omega)]
  refine ⟨rfl, hone, ?_, ?_⟩
  · rw [hone]
    decide
  · rw [fftComplex, List.length_map, List.length_range, hone]
